import Mathlib

/-!
Verification of the PII redaction service.

Strings are modelled as lists of characters (`Str`).  JavaScript's
`toLowerCase` is modelled character-wise by `Char.toLower` (ASCII case
folding), which is length preserving; the service operates on ASCII chat
text.  Machine numbers that can only hold non-negative integers in the
reachable states are modelled as `Nat`; a JavaScript number that may be
`NaN` is modelled as `Option Nat` with `none` standing for `NaN`.
-/

namespace PiiService

/-- Strings are lists of characters. -/
abbrev Str := List Char

/-- Coerce a Lean string literal to the `Str` model. -/
def str (s : String) : Str := s.data

/-- Characters treated as whitespace by the JavaScript runtime
(the subset relevant to chat text). -/
def isJsWs (c : Char) : Bool :=
  c = ' ' || c = '\t' || c = '\n' || c = '\r' || c = '\x0b' || c = '\x0c'

/-- Model of JavaScript String.prototype.trim. -/
def jsTrim (s : Str) : Str :=
  ((s.dropWhile isJsWs).reverse.dropWhile isJsWs).reverse

/-- Model of JavaScript String.prototype.toLowerCase, character-wise. -/
def jsToLower (s : Str) : Str := s.map Char.toLower

/-- Index of the first occurrence of `tgt` in `hay` (JavaScript
String.prototype.indexOf with fromIndex 0). -/
def idxOfAux : Str → Str → Option Nat
  | hay, tgt =>
    if tgt.isPrefixOf hay then some 0
    else match hay with
      | [] => none
      | _ :: t => (idxOfAux t tgt).map (· + 1)

/-- JavaScript `hay.indexOf(tgt, from)`: first occurrence at index ≥ from. -/
def strIndexOfFrom (hay tgt : Str) (start : Nat) : Option Nat :=
  (idxOfAux (hay.drop start) tgt).map (· + start)

/-- The 17-member closed enumeration of PII types
(src/shared/types/pii.types.ts, PII_ENTITY_TYPES). -/
inductive PiiEntityType where
  | PERSON | EMAIL | PHONE | ADDRESS | SSN | CREDIT_CARD | BANK_ACCOUNT
  | DATE_OF_BIRTH | PASSPORT | DRIVER_LICENSE | IP_ADDRESS | URL | USERNAME
  | PASSWORD | MEDICAL_ID | NATIONAL_ID | TAX_ID
  deriving DecidableEq, Repr

open PiiEntityType

/-- The TypeScript string literal naming each PII type. -/
def piiTypeName : PiiEntityType → Str
  | PERSON => str "PERSON"
  | EMAIL => str "EMAIL"
  | PHONE => str "PHONE"
  | ADDRESS => str "ADDRESS"
  | SSN => str "SSN"
  | CREDIT_CARD => str "CREDIT_CARD"
  | BANK_ACCOUNT => str "BANK_ACCOUNT"
  | DATE_OF_BIRTH => str "DATE_OF_BIRTH"
  | PASSPORT => str "PASSPORT"
  | DRIVER_LICENSE => str "DRIVER_LICENSE"
  | IP_ADDRESS => str "IP_ADDRESS"
  | URL => str "URL"
  | USERNAME => str "USERNAME"
  | PASSWORD => str "PASSWORD"
  | MEDICAL_ID => str "MEDICAL_ID"
  | NATIONAL_ID => str "NATIONAL_ID"
  | TAX_ID => str "TAX_ID"

/-- Risk weight table PII_RISK_POINTS (src/shared/types/pii.types.ts). -/
def PII_RISK_POINTS : PiiEntityType → Nat
  | PERSON => 5
  | EMAIL => 5
  | PHONE => 10
  | ADDRESS => 10
  | SSN => 25
  | CREDIT_CARD => 25
  | BANK_ACCOUNT => 20
  | DATE_OF_BIRTH => 5
  | PASSPORT => 20
  | DRIVER_LICENSE => 15
  | IP_ADDRESS => 5
  | URL => 2
  | USERNAME => 5
  | PASSWORD => 30
  | MEDICAL_ID => 20
  | NATIONAL_ID => 20
  | TAX_ID => 20

/-- PiiEntity (src/shared/types/pii.types.ts).  Offsets are half-open
character offsets into the scanned text; confidence is the mean token
score, modelled as a rational. -/
structure PiiEntity where
  type : PiiEntityType
  text : Str
  start : Nat
  «end» : Nat
  confidence : ℚ
  deriving DecidableEq, Repr

/-- Raw token-classification output (src/engine/inference-runner.ts,
RawToken).  No position information. -/
structure RawToken where
  entity : Str
  word : Str
  score : ℚ
  index : Int
  deriving DecidableEq, Repr

/-- LABEL_TO_PII_TYPE lookup table (src/engine/inference-runner.ts). -/
def labelToPiiType (l : Str) : Option PiiEntityType :=
  if l = str "ACCOUNTNUM" then some BANK_ACCOUNT
  else if l = str "BUILDINGNUM" then some ADDRESS
  else if l = str "CITY" then some ADDRESS
  else if l = str "CREDITCARDNUMBER" then some CREDIT_CARD
  else if l = str "DATEOFBIRTH" then some DATE_OF_BIRTH
  else if l = str "DRIVERLICENSENUM" then some DRIVER_LICENSE
  else if l = str "EMAIL" then some EMAIL
  else if l = str "GIVENNAME" then some PERSON
  else if l = str "IDCARDNUM" then some NATIONAL_ID
  else if l = str "PASSWORD" then some PASSWORD
  else if l = str "SOCIALNUM" then some SSN
  else if l = str "STREET" then some ADDRESS
  else if l = str "SURNAME" then some PERSON
  else if l = str "TAXNUM" then some TAX_ID
  else if l = str "TELEPHONENUM" then some PHONE
  else if l = str "USERNAME" then some USERNAME
  else if l = str "ZIPCODE" then some ADDRESS
  else none

/-- parseLabel (src/engine/inference-runner.ts): strip a leading B- or
I- tag prefix; empty labels and the literal O yield no label. -/
def parseLabel (entity : Str) : Option Str :=
  if entity = [] ∨ entity = str "O" then none
  else if (str "B-").isPrefixOf entity ∨ (str "I-").isPrefixOf entity then
    some (entity.drop 2)
  else some entity

/-- An open token group accumulated by the locator loop. -/
structure TokenGroup where
  label : Str
  words : List Str
  scores : List ℚ
  lastIdx : Int
  deriving Repr

/-- Subword join step of finalizeGroup: a ## fragment is concatenated
directly; a leading-space fragment contributes the space only when text
was already accumulated. -/
def joinWordStep (joined : Str) (w : Str) : Str :=
  if (str "##").isPrefixOf w then joined ++ w.drop 2
  else if (str " ").isPrefixOf w then
    (if joined ≠ [] then joined ++ w else joined ++ w.drop 1)
  else joined ++ w

/-- Join all surface fragments of a group (finalizeGroup, join loop). -/
def joinWords (ws : List Str) : Str := ws.foldl joinWordStep []

/-- Overlap test used on candidate spans:
candidateStart < acceptedEnd and candidateEnd > acceptedStart. -/
def rangesOverlap (s e : Nat) (p : Nat × Nat) : Bool :=
  decide (s < p.2) && decide (e > p.1)

/-- One search round of findPosition with explicit fuel.  The JavaScript
loop advances the cursor by at least one per round and exits once it
reaches the text length, so fuel `text.length + 1` makes the recursion
total without changing behaviour. -/
def findPositionAux (lower target : Str) (searchLen textLen : Nat)
    (used : List (Nat × Nat)) : Nat → Nat → Option (Nat × Nat)
  | 0, _ => none
  | fuel + 1, start =>
    if start < textLen then
      match strIndexOfFrom lower target start with
      | none => none
      | some s =>
        let e := s + searchLen
        if used.any (rangesOverlap s e) then
          findPositionAux lower target searchLen textLen used fuel (s + 1)
        else some (s, e)
    else none

/-- findPosition (src/engine/inference-runner.ts): case-insensitive
substring search skipping candidate spans that overlap accepted ones. -/
def findPosition (search text : Str) (used : List (Nat × Nat)) :
    Option (Nat × Nat) :=
  findPositionAux (jsToLower text) (jsToLower search) search.length
    text.length used (text.length + 1) 0

/-- finalizeGroup (src/engine/inference-runner.ts). -/
def finalizeGroup (g : TokenGroup) (text : Str) (used : List (Nat × Nat)) :
    Option PiiEntity :=
  match labelToPiiType g.label with
  | none => none
  | some piiType =>
    let joined := jsTrim (joinWords g.words)
    if joined.length < 2 then none
    else
      match findPosition joined text used with
      | none => none
      | some (s, e) =>
        some { type := piiType
               text := (text.drop s).take (e - s)
               start := s
               «end» := e
               confidence := g.scores.foldl (· + ·) 0 / (g.scores.length : ℚ) }

/-- Accumulator of the locator scan. -/
structure LocState where
  entities : List PiiEntity
  used : List (Nat × Nat)
  group : Option TokenGroup

/-- Close the open group: locate it and, on success, record the entity
and its span. -/
def closeGroup (text : Str) (entities : List PiiEntity)
    (used : List (Nat × Nat)) (g : TokenGroup) :
    List PiiEntity × List (Nat × Nat) :=
  match finalizeGroup g text used with
  | some ent => (entities ++ [ent], used ++ [(ent.start, ent.«end»)])
  | none => (entities, used)

/-- Close the open group (when any) at a group boundary. -/
def closeStep (text : Str) (st : LocState) : LocState :=
  match st.group with
  | some g =>
    ⟨(closeGroup text st.entities st.used g).1,
     (closeGroup text st.entities st.used g).2, none⟩
  | none => st

/-- Per-token step of groupAndLocateEntities. -/
def stepToken (text : Str) (st : LocState) (tok : RawToken) : LocState :=
  match parseLabel tok.entity with
  | none => closeStep text st
  | some l =>
    match labelToPiiType l with
    | none => closeStep text st
    | some _ =>
      match st.group with
      | none => ⟨st.entities, st.used, some ⟨l, [tok.word], [tok.score], tok.index⟩⟩
      | some g =>
        if g.label ≠ l ∨ tok.index > g.lastIdx + 1 then
          ⟨(closeGroup text st.entities st.used g).1,
           (closeGroup text st.entities st.used g).2,
           some ⟨l, [tok.word], [tok.score], tok.index⟩⟩
        else
          ⟨st.entities, st.used,
            some ⟨g.label, g.words ++ [tok.word], g.scores ++ [tok.score], tok.index⟩⟩

/-- groupAndLocateEntities (src/engine/inference-runner.ts). -/
def groupAndLocateEntities (tokens : List RawToken) (text : Str) :
    List PiiEntity :=
  let fin := tokens.foldl (stepToken text) ⟨[], [], none⟩
  match fin.group with
  | some g =>
    match finalizeGroup g text fin.used with
    | some ent => fin.entities ++ [ent]
    | none => fin.entities
  | none => fin.entities

/-- Two entity spans do not intersect (the negation of the interval
overlap test candidateStart < acceptedEnd and candidateEnd >
acceptedStart). -/
def EntDisjoint (a b : PiiEntity) : Prop :=
  ¬(a.start < b.«end» ∧ a.«end» > b.start)

/-- All spans lie within the text: 0 ≤ start < end ≤ length. -/
def EntInBounds (text : Str) (l : List PiiEntity) : Prop :=
  ∀ e ∈ l, e.start < e.«end» ∧ e.«end» ≤ text.length

/-- Pairwise non-intersection of an entity list. -/
def EntNonOverlapping (l : List PiiEntity) : Prop :=
  l.Pairwise EntDisjoint

/-- Locator scan invariant: recorded ranges mirror the accepted
entities, which are in bounds and pairwise disjoint. -/
def LocInv (text : Str) (entities : List PiiEntity)
    (used : List (Nat × Nat)) : Prop :=
  used = entities.map (fun e => (e.start, e.«end»)) ∧
  EntInBounds text entities ∧ EntNonOverlapping entities

/-! ### Replacement generator (src/features/redaction/replacement.utils.ts)

The keyed hash (node:crypto HMAC-SHA256) and the seeded fake-data library
(faker) are external collaborators.  The hash is an arbitrary function
parameter `hmac : Str → Str → Str` (key, message ↦ hex digest); faker is
modelled as a seeded pseudo-random generator whose state is fully
determined by the last `faker.seed` call, matching its documented
interface.  The generator bodies are stand-ins for the collaborator; the
theorems below do not depend on which values they produce. -/

/-- Global mutable faker PRNG state. -/
structure FakerState where
  state : Nat
  deriving DecidableEq, Repr

/-- Model of faker.seed: the state becomes a function of the seed alone. -/
def fakerSeed (seed : Nat) : FakerState := ⟨seed⟩

/-- One linear-congruential step of the modelled PRNG. -/
def fakerNext : StateM FakerState Nat := fun s =>
  let n := (1103515245 * s.state + 12345) % 2147483648
  (n, ⟨n⟩)

/-- Model of faker.string.numeric: a string of decimal digits. -/
def fakerNumeric (len : Nat) : StateM FakerState Str := fun s =>
  (List.range len).foldl
    (fun (acc : Str × FakerState) _ =>
      let (n, s') := fakerNext acc.2
      (acc.1 ++ [Char.ofNat ('0'.toNat + n % 10)], s'))
    ([], s)

/-- Model of faker.string.alpha with upper casing. -/
def fakerAlphaUpper (len : Nat) : StateM FakerState Str := fun s =>
  (List.range len).foldl
    (fun (acc : Str × FakerState) _ =>
      let (n, s') := fakerNext acc.2
      (acc.1 ++ [Char.ofNat ('A'.toNat + n % 26)], s'))
    ([], s)

/-- Model of a faker generator producing a word from a small pool. -/
def fakerWord (pool : List Str) : StateM FakerState Str := fun s =>
  let (n, s') := fakerNext s
  (pool.getD (n % pool.length) (str "x"), s')

/-- Model of faker.person.fullName. -/
def fakerFullName : StateM FakerState Str := do
  let first ← fakerWord [str "Alex", str "Sam", str "Jordan", str "Casey"]
  let last ← fakerWord [str "Smith", str "Jones", str "Lee", str "Brown"]
  pure (first ++ [' '] ++ last)

/-- Model of faker.internet.email. -/
def fakerEmail : StateM FakerState Str := do
  let u ← fakerWord [str "alex", str "sam", str "jordan", str "casey"]
  let n ← fakerNumeric 2
  pure (u ++ n ++ str "@example.com")

/-- Model of faker.phone.number. -/
def fakerPhone : StateM FakerState Str := do
  let a ← fakerNumeric 3
  let b ← fakerNumeric 3
  let c ← fakerNumeric 4
  pure (a ++ ['-'] ++ b ++ ['-'] ++ c)

/-- Model of faker.location.streetAddress. -/
def fakerStreetAddress : StateM FakerState Str := do
  let n ← fakerNumeric 3
  let w ← fakerWord [str "Oak St", str "Main St", str "Pine Ave", str "Elm Rd"]
  pure (n ++ [' '] ++ w)

/-- Model of faker.finance.accountNumber. -/
def fakerAccountNumber : StateM FakerState Str := fakerNumeric 8

/-- Model of faker.date.birthdate rendered as a US locale date. -/
def fakerBirthdate : StateM FakerState Str := do
  let m ← fakerNext
  let d ← fakerNext
  let y ← fakerNext
  pure (str (toString (m % 12 + 1)) ++ ['/'] ++ str (toString (d % 28 + 1))
    ++ ['/'] ++ str (toString (1944 + y % 63)))

/-- Model of faker.internet.ipv4. -/
def fakerIpv4 : StateM FakerState Str := do
  let a ← fakerNext
  let b ← fakerNext
  let c ← fakerNext
  let d ← fakerNext
  pure (str (toString (a % 256)) ++ ['.'] ++ str (toString (b % 256))
    ++ ['.'] ++ str (toString (c % 256)) ++ ['.'] ++ str (toString (d % 256)))

/-- Model of faker.internet.url. -/
def fakerUrl : StateM FakerState Str := do
  let w ← fakerWord [str "acme", str "globex", str "initech", str "umbrella"]
  pure (str "https://" ++ w ++ str ".example.com")

/-- Model of faker.internet.username. -/
def fakerUsername : StateM FakerState Str := do
  let w ← fakerWord [str "alex", str "sam", str "jordan", str "casey"]
  let n ← fakerNumeric 2
  pure (w ++ ['_'] ++ n)

/-- Decimal digit character. -/
def digitChar (d : Nat) : Char := Char.ofNat ('0'.toNat + d)

/-- Digit-emitting loop with explicit fuel (one digit per unit; any fuel
above the digit count gives the same output). -/
def natToStrAux : Nat → Nat → Str
  | 0, _ => []
  | fuel + 1, n =>
    if n < 10 then [digitChar n]
    else natToStrAux fuel (n / 10) ++ [digitChar (n % 10)]

/-- Decimal rendering of a number (JavaScript Number.prototype.toString
on a non-negative integer). -/
def natToStr (n : Nat) : Str := natToStrAux (n + 1) n

/-- Parse a leading run of decimal digits (JavaScript parseInt radix 10 on
the canonical numerals the store produces); `none` models NaN. -/
def jsParseIntDec (s : Str) : Option Nat :=
  let digits := s.takeWhile Char.isDigit
  if digits = [] then none
  else some (digits.foldl (fun acc c => acc * 10 + (c.toNat - '0'.toNat)) 0)

/-- Value of a leading run of hex digits (JavaScript parseInt radix 16;
an HMAC hex digest always begins with a hex digit). -/
def jsParseIntHex (s : Str) : Nat :=
  (s.takeWhile (fun c => c.isDigit || ('a' ≤ c ∧ c ≤ 'f') || ('A' ≤ c ∧ c ≤ 'F'))).foldl
    (fun acc c =>
      acc * 16 +
        (if c.isDigit then c.toNat - '0'.toNat
         else if 'a' ≤ c ∧ c ≤ 'f' then c.toNat - 'a'.toNat + 10
         else c.toNat - 'A'.toNat + 10)) 0

/-- getDeterministicReplacement
(src/features/redaction/replacement.utils.ts): derive a 32-bit seed from
the keyed hash of the original text, reseed the fake-data generator, then
generate a type-appropriate value.  `hmac key msg` is the hex digest of
the external HMAC-SHA256 collaborator. -/
def getDeterministicReplacement (hmac : Str → Str → Str)
    (originalText : Str) (type : PiiEntityType) (salt : Str) :
    StateM FakerState Str := do
  let hash := hmac salt originalText
  let seed := jsParseIntHex (hash.take 8)
  set (fakerSeed seed)
  match type with
  | PERSON => fakerFullName
  | EMAIL => fakerEmail
  | PHONE => fakerPhone
  | ADDRESS => fakerStreetAddress
  | SSN => do
    let a ← fakerNumeric 3
    let b ← fakerNumeric 2
    let c ← fakerNumeric 4
    pure (a ++ ['-'] ++ b ++ ['-'] ++ c)
  | CREDIT_CARD => do
    let a ← fakerNumeric 4
    let b ← fakerNumeric 4
    let c ← fakerNumeric 4
    let d ← fakerNumeric 4
    pure (a ++ ['-'] ++ b ++ ['-'] ++ c ++ ['-'] ++ d)
  | BANK_ACCOUNT => fakerAccountNumber
  | DATE_OF_BIRTH => fakerBirthdate
  | PASSPORT => do
    let a ← fakerAlphaUpper 2
    let b ← fakerNumeric 7
    pure (a ++ b)
  | DRIVER_LICENSE => do
    let a ← fakerAlphaUpper 1
    let b ← fakerNumeric 7
    pure (a ++ b)
  | IP_ADDRESS => fakerIpv4
  | URL => fakerUrl
  | USERNAME => do
    let u ← fakerUsername
    pure ('@' :: u)
  | PASSWORD => pure (str "[REDACTED_PASSWORD]")
  | MEDICAL_ID => do
    let n ← fakerNumeric 8
    pure (str "MED" ++ n)
  | NATIONAL_ID => fakerNumeric 10
  | TAX_ID => do
    let a ← fakerNumeric 2
    let b ← fakerNumeric 7
    pure (a ++ ['-'] ++ b)

/-- The types given an explicit case in the per-type generation switch of
getDeterministicReplacement (all members of the closed enumeration). -/
def generationTableTypes : List PiiEntityType :=
  [PERSON, EMAIL, PHONE, ADDRESS, SSN, CREDIT_CARD, BANK_ACCOUNT,
   DATE_OF_BIRTH, PASSPORT, DRIVER_LICENSE, IP_ADDRESS, URL, USERNAME,
   PASSWORD, MEDICAL_ID, NATIONAL_ID, TAX_ID]

/-- getSimpleRedaction (src/features/redaction/replacement.utils.ts). -/
def getSimpleRedaction (type : PiiEntityType) : Str :=
  '[' :: piiTypeName type ++ [']']

/-- The generator output as a pure function of the triple.  The first
action of getDeterministicReplacement is reseeding, so its output does
not depend on the incoming generator state
(theorem getDeterministicReplacement_state_irrelevant below). -/
def getDeterministicReplacementPure (hmac : Str → Str → Str)
    (originalText : Str) (type : PiiEntityType) (salt : Str) : Str :=
  ((getDeterministicReplacement hmac originalText type salt).run ⟨0⟩).1

/-! ### Redaction orchestrator (src/features/redaction/redaction.service.ts) -/

/-- failStrategy configuration value; `opn` is the source's open. -/
inductive FailStrategy where
  | closed
  | opn
  deriving DecidableEq, Repr

/-- RedactionOptions. -/
structure RedactionOptions where
  useDeterministicReplacement : Bool
  salt : Str
  timeoutMs : Nat
  failStrategy : FailStrategy
  deriving Repr

/-- Replacement chosen for one entity inside applyRedactions. -/
def replacementFor (hmac : Str → Str → Str) (opts : RedactionOptions)
    (e : PiiEntity) : Str :=
  if opts.useDeterministicReplacement then
    getDeterministicReplacementPure hmac e.text e.type opts.salt
  else getSimpleRedaction e.type

/-- Insert an entity into a list kept in descending start order; models
one step of the stable JavaScript sort with comparator b.start - a.start. -/
def insertDesc (e : PiiEntity) : List PiiEntity → List PiiEntity
  | [] => [e]
  | a :: l => if a.start ≤ e.start then e :: a :: l else a :: insertDesc e l

/-- Sort entities in descending order of start offset. -/
def sortByStartDesc (l : List PiiEntity) : List PiiEntity :=
  l.foldr insertDesc []

/-- Replace span [start, end) of `t` by the replacement `rep`. -/
def spliceOne (rep : PiiEntity → Str) (t : Str) (e : PiiEntity) : Str :=
  t.take e.start ++ rep e ++ t.drop e.«end»

/-- applyRedactions (src/features/redaction/redaction.service.ts):
replace each entity span, processed in descending order of start. -/
def applyRedactions (hmac : Str → Str → Str) (opts : RedactionOptions)
    (text : Str) (entities : List PiiEntity) : Str :=
  (sortByStartDesc entities).foldl (spliceOne (replacementFor hmac opts)) text

/-- Reference rendering following the spec's words: emit the characters
of `text` from position `pos` onwards, in order, replacing exactly the
span of each listed entity (given in ascending start order) by its
replacement and keeping every character outside the spans unchanged. -/
def replaceSpansAsc (rep : PiiEntity → Str) (text : Str) (pos : Nat) :
    List PiiEntity → Str
  | [] => text.drop pos
  | e :: rest =>
    (text.drop pos).take (e.start - pos) ++ rep e
      ++ replaceSpansAsc rep text e.«end» rest

/-- Outcome of racing the inference collaborator against the timeout
timer (RedactionService.runWithTimeout): the collaborator finishes with
raw tokens, the timer wins, or the collaborator fails. -/
inductive InferenceOutcome where
  | completed (tokens : List RawToken)
  | timedOut
  | failed (msg : Str)

/-- Errors surfaced by the redaction service. -/
inductive RedactionError where
  | inferenceTimeout (ms : Nat)
  | otherFailure (msg : Str)
  deriving DecidableEq, Repr

/-- RedactionResult. -/
structure RedactionResult where
  text : Str
  entities : List PiiEntity
  processingTimeMs : Nat
  deriving DecidableEq, Repr

/-- runInference (src/engine/inference-runner.ts) applied to the
collaborator's token output; elapsed wall-clock time is modelled as 0. -/
def runInference (tokens : List RawToken) (text : Str) :
    RedactionResult :=
  ⟨text, groupAndLocateEntities tokens text, 0⟩

/-- RedactionService.redact: blank input short-circuits; a timeout is
propagated or swallowed per failStrategy; any other collaborator error
propagates; on success the located entities are applied to the text. -/
def redact (hmac : Str → Str → Str) (opts : RedactionOptions) (text : Str)
    (outcome : InferenceOutcome) : Except RedactionError RedactionResult :=
  if text = [] ∨ jsTrim text = [] then .ok ⟨text, [], 0⟩
  else
    match outcome with
    | .timedOut =>
      if opts.failStrategy = .closed then
        .error (.inferenceTimeout opts.timeoutMs)
      else .ok ⟨text, [], opts.timeoutMs⟩
    | .failed msg => .error (.otherFailure msg)
    | .completed tokens =>
      let entities := groupAndLocateEntities tokens text
      if entities = [] then .ok ⟨text, [], 0⟩
      else .ok ⟨applyRedactions hmac opts text entities, entities, 0⟩

/-! ### Key-value store (src/infrastructure/store/store-client.ts,
InMemoryStore) and session risk engine.

The store is an insertion-ordered association list mirroring a JavaScript
Map.  Every operation takes the current clock value `now` (Date.now()).
A number that may be NaN is `Option Nat` with `none` for NaN. -/

/-- One stored entry: value string and optional absolute expiry time.
A JavaScript falsy expiresAt (null, and the unreachable 0) disables
expiry; the model keeps the explicit 0 check for fidelity. -/
structure StoreEntry where
  value : Str
  expiresAt : Option Nat
  deriving DecidableEq, Repr

/-- The in-memory store: insertion-ordered key/entry pairs. -/
abbrev Store := List (Str × StoreEntry)

/-- InMemoryStore maxSize (least-recently-inserted eviction bound). -/
def storeMaxSize : Nat := 10000

/-- Raw Map lookup. -/
def storeLookup : Store → Str → Option StoreEntry
  | [], _ => none
  | p :: rest, k => if p.1 = k then some p.2 else storeLookup rest k

/-- Map.set semantics: update in place when present, append when new. -/
def storeWrite : Store → Str → StoreEntry → Store
  | [], k, e => [(k, e)]
  | p :: rest, k, e =>
    if p.1 = k then (k, e) :: rest else p :: storeWrite rest k e

/-- Map.delete semantics. -/
def storeErase (st : Store) (k : Str) : Store :=
  st.filter (fun p => ¬ p.1 = k)

/-- Whether an entry is expired at time `now`
(entry.expiresAt truthy and now strictly past it). -/
def entryExpired (e : StoreEntry) (now : Nat) : Bool :=
  match e.expiresAt with
  | some exp => decide (exp ≠ 0) && decide (now > exp)
  | none => false

/-- InMemoryStore.get: lazily deletes an expired entry and reports null. -/
def imGet (st : Store) (k : Str) (now : Nat) : Option Str × Store :=
  match storeLookup st k with
  | none => (none, st)
  | some e =>
    if entryExpired e now then (none, storeErase st k)
    else (some e.value, st)

/-- InMemoryStore.set: evict the first-inserted key when full, then
write; a falsy ttlSeconds means no expiry. -/
def imSet (st : Store) (k : Str) (v : Str) (ttlSeconds : Option Nat)
    (now : Nat) : Store :=
  let st1 :=
    if storeMaxSize ≤ st.length then
      match st with
      | [] => st
      | p :: _ => storeErase st p.1
    else st
  let expiresAt :=
    match ttlSeconds with
    | some t => if t ≠ 0 then some (now + t * 1000) else none
    | none => none
  storeWrite st1 k ⟨v, expiresAt⟩

/-- The JavaScript expression current || '0': null and the empty string
are falsy. -/
def jsFalsyDefault (v : Option Str) : Str :=
  match v with
  | none => str "0"
  | some s => if s = [] then str "0" else s

/-- InMemoryStore.incr: read (with lazy expiry), add one to the parsed
value, and write back preserving the remaining whole seconds of TTL.
The returned number is NaN (`none`) when the stored value does not
parse. -/
def imIncr (st : Store) (k : Str) (now : Nat) : Option Nat × Store :=
  let current := (imGet st k now).1
  let st1 := (imGet st k now).2
  let base := jsFalsyDefault current
  let parsed := jsParseIntDec base
  let newValueStr :=
    match parsed with
    | some n => natToStr (n + 1)
    | none => str "NaN"
  let ttlSeconds :=
    match storeLookup st1 k with
    | some e =>
      match e.expiresAt with
      | some exp => if exp ≠ 0 then some ((exp - now) / 1000) else none
      | none => none
    | none => none
  (parsed.map (· + 1), imSet st1 k newValueStr ttlSeconds now)

/-- InMemoryStore.expire: set an absolute expiry on an existing key. -/
def imExpire (st : Store) (k : Str) (ttlSeconds : Nat) (now : Nat) :
    Bool × Store :=
  match storeLookup st k with
  | none => (false, st)
  | some e => (true, storeWrite st k ⟨e.value, some (now + ttlSeconds * 1000)⟩)

/-- InMemoryStore.del. -/
def imDel (st : Store) (k : Str) : Store := storeErase st k

/-- Risk key namespacing (SessionStore riskPrefix). -/
def riskKey (sessionId : Str) : Str := str "risk:" ++ sessionId

/-- Pure observation: the live (present and unexpired) value of a key. -/
def readVal (st : Store) (k : Str) (now : Nat) : Option Str :=
  match storeLookup st k with
  | none => none
  | some e => if entryExpired e now then none else some e.value

/-- Numeric reading of a risk value: an absent, expired or empty value
reads as 0, otherwise the stored string is parsed (NaN as `none`). -/
def riskValNum (st : Store) (k : Str) (now : Nat) : Option Nat :=
  jsParseIntDec (jsFalsyDefault (readVal st k now))

/-- Whether the risk entry of a session is present but expired. -/
def riskEntryExpired (st : Store) (sessionId : Str) (now : Nat) : Bool :=
  match storeLookup st (riskKey sessionId) with
  | some e => entryExpired e now
  | none => false

/-- Repeat single-unit increments (the multi-point loop of
incrementRisk, an artifact of the single-unit INCR primitive). -/
def incrLoop (k : Str) (now : Nat) : Nat → Store → Store
  | 0, st => st
  | n + 1, st => incrLoop k now n (imIncr st k now).2

/-- SessionStore.incrementRisk: one increment, TTL armed when the key is
fresh (score 1), then the remaining points via the loop; returns
newScore + points - 1. -/
def incrementRisk (st : Store) (sessionId : Str) (points : Nat)
    (windowMs : Nat) (now : Nat) : Option Nat × Store :=
  let k := riskKey sessionId
  let newScore := (imIncr st k now).1
  let st1 := (imIncr st k now).2
  let st2 :=
    if newScore = some 1 then
      (imExpire st1 k ((windowMs + 999) / 1000) now).2
    else st1
  if 1 < points then
    (newScore.map (· + (points - 1)), incrLoop k now (points - 1) st2)
  else (newScore, st2)

/-- SessionStore.getRiskScore: a falsy (absent or empty) value reads as
0, otherwise the stored numeral is parsed. -/
def getRiskScore (st : Store) (sessionId : Str) (now : Nat) :
    Option Nat × Store :=
  let v := (imGet st (riskKey sessionId) now).1
  let st1 := (imGet st (riskKey sessionId) now).2
  match v with
  | none => (some 0, st1)
  | some s => if s = [] then (some 0, st1) else (jsParseIntDec s, st1)

/-- JavaScript >= on a possibly-NaN left operand: NaN compares false. -/
def jsGE (a : Option Nat) (b : Nat) : Bool :=
  match a with
  | some n => decide (b ≤ n)
  | none => false

/-- SessionStore.isBanned. -/
def storeIsBanned (st : Store) (sessionId : Str) (threshold : Nat)
    (now : Nat) : Bool × Store :=
  (jsGE (getRiskScore st sessionId now).1 threshold,
   (getRiskScore st sessionId now).2)

/-- SessionStore.clearRisk. -/
def clearRisk (st : Store) (sessionId : Str) : Store :=
  imDel st (riskKey sessionId)

/-- Session risk configuration. -/
structure RiskConfig where
  threshold : Nat
  windowMs : Nat
  deriving Repr

/-- RiskAssessment returned by assessRisk. -/
structure RiskAssessment where
  score : Option Nat
  isBanned : Bool
  pointsAdded : Nat
  deriving DecidableEq, Repr

/-- Risk points contributed by one entity
(PII_RISK_POINTS lookup with the falsy-default 5). -/
def entityRiskPoints (e : PiiEntity) : Nat :=
  let p := PII_RISK_POINTS e.type
  if p = 0 then 5 else p

/-- SessionService.assessRisk
(src/features/session/risk-engine.service.ts): an empty entity list is a
read-only assessment; otherwise the summed weights are added through
incrementRisk and ban status recomputed. -/
def assessRisk (cfg : RiskConfig) (st : Store) (sessionId : Str)
    (entities : List PiiEntity) (now : Nat) : RiskAssessment × Store :=
  if entities = [] then
    let currentScore := (getRiskScore st sessionId now).1
    (⟨currentScore, jsGE currentScore cfg.threshold, 0⟩,
     (getRiskScore st sessionId now).2)
  else
    let pointsToAdd := (entities.map entityRiskPoints).sum
    let newScore := (incrementRisk st sessionId pointsToAdd cfg.windowMs now).1
    (⟨newScore, jsGE newScore cfg.threshold, pointsToAdd⟩,
     (incrementRisk st sessionId pointsToAdd cfg.windowMs now).2)

/-! ### Streaming redaction transformer (PiiRedactionStream)

The transformer is modelled as an explicit state machine.  The JSON
codec is an arbitrary parameter `parse` (payload line to parsed chunk);
the redaction collaborator is a parameter `redactText` standing for the
text field of a successful RedactionService.redact call.  Pushed output
is kept structured: a passthrough line, a reframed delta (the payload of
formatAsOpenAiSSE), or the DONE terminator frame.  The reschedulable
flush timer is modelled by an armed flag plus explicit timer-fire
events; an event list covers every possible interleaving of chunk
arrivals and timer callbacks. -/

/-- Parsed delta choice (OpenAiChatCompletionChunkChoice). -/
structure ChoiceJson where
  index : Option Nat
  role : Option Str
  content : Option Str
  deriving DecidableEq, Repr

/-- Parsed chunk (OpenAiChatCompletionChunk). -/
structure ChunkJson where
  id : Option Str
  model : Option Str
  created : Option Nat
  choices : List ChoiceJson
  deriving DecidableEq, Repr

/-- Captured stream metadata (lastMeta). -/
structure StreamMeta where
  id : Option Str
  model : Option Str
  created : Option Nat
  index : Option Nat
  role : Option Str
  deriving DecidableEq, Repr

/-- Reframed delta frame produced by formatAsOpenAiSSE. -/
structure DeltaFrame where
  content : Str
  role : Option Str
  id : Option Str
  model : Option Str
  created : Option Nat
  index : Nat
  deriving DecidableEq, Repr

/-- One pushed output item. -/
inductive OutItem where
  | passthrough (s : Str)
  | frame (f : DeltaFrame)
  | doneMark
  deriving DecidableEq, Repr

/-- Transformer options. -/
structure StreamOptions where
  maxTokens : Nat
  maxDelayMs : Nat
  deriving Repr

/-- Default options of the stream transformer. -/
def defaultStreamOptions : StreamOptions := ⟨20, 200⟩

/-- Per-stream transformer state. -/
structure StreamState where
  buffer : Str
  tokenCount : Nat
  lastFlushTime : Nat
  lineBuffer : Str
  lastMeta : StreamMeta
  roleEmitted : Bool
  timerArmed : Bool
  deriving DecidableEq, Repr

/-- Initial transformer state (stream opened at time `now0`). -/
def initStreamState (now0 : Nat) : StreamState :=
  ⟨[], 0, now0, [], ⟨none, none, none, none, none⟩, false, false⟩

/-- estimateTokens: ceil(length / 4). -/
def estimateTokens (t : Str) : Nat := (t.length + 3) / 4

/-- Test of the SENTENCE_BOUNDARY pattern: a terminal punctuation mark
followed by whitespace, or at the end of the buffer. -/
def sentenceBoundary : Str → Bool
  | [] => false
  | [c] => c = '.' || c = '!' || c = '?'
  | c1 :: c2 :: rest =>
    ((c1 = '.' || c1 = '!' || c1 = '?') && isJsWs c2)
      || sentenceBoundary (c2 :: rest)

/-- shouldFlush: sentence boundary, token budget, or elapsed delay. -/
def shouldFlush (opts : StreamOptions) (st : StreamState) (now : Nat) : Bool :=
  sentenceBoundary st.buffer || decide (opts.maxTokens ≤ st.tokenCount)
    || decide (opts.maxDelayMs ≤ now - st.lastFlushTime)

/-- extractDeltaContent: empty-choice chunks contribute nothing and do
not touch metadata; otherwise metadata is refreshed field-wise and the
delta text (empty when absent) returned. -/
def extractDeltaContent (meta : StreamMeta) (data : ChunkJson) :
    Str × StreamMeta :=
  match data.choices with
  | [] => ([], meta)
  | choice :: _ =>
    let meta' : StreamMeta :=
      ⟨data.id <|> meta.id, data.model <|> meta.model,
       data.created <|> meta.created, choice.index <|> meta.index,
       choice.role <|> meta.role⟩
    (choice.content.getD [], meta')

/-- formatAsOpenAiSSE: wrap redacted text in a delta frame reusing the
captured metadata, injecting the role only on the first emitted frame. -/
def formatFrame (st : StreamState) (text : Str) : DeltaFrame × StreamState :=
  if st.lastMeta.role.isSome ∧ ¬ st.roleEmitted then
    (⟨text, st.lastMeta.role, st.lastMeta.id, st.lastMeta.model,
       st.lastMeta.created, st.lastMeta.index.getD 0⟩,
     { st with roleEmitted := true })
  else
    (⟨text, none, st.lastMeta.id, st.lastMeta.model, st.lastMeta.created,
       st.lastMeta.index.getD 0⟩, st)

/-- flushBuffer: push the redacted buffer as one delta frame and reset
the buffer, token estimate and flush clock; no-op on an empty buffer. -/
def flushBuffer (redactText : Str → Str) (st : StreamState) (now : Nat) :
    StreamState × List OutItem :=
  if st.buffer = [] then (st, [])
  else
    let textToProcess := st.buffer
    let st1 := { st with buffer := [], tokenCount := 0, lastFlushTime := now }
    ((formatFrame st1 (redactText textToProcess)).2,
     [.frame (formatFrame st1 (redactText textToProcess)).1])

/-- Strip one trailing carriage return (the \r$ replace). -/
def stripCR (line : Str) : Str :=
  match line.getLast? with
  | some '\r' => line.dropLast
  | _ => line

/-- Process one complete SSE line (_transform, per-line body). -/
def processLine (parse : Str → Option ChunkJson) (redactText : Str → Str)
    (opts : StreamOptions) (now : Nat) (st : StreamState) (rawLine : Str) :
    StreamState × List OutItem :=
  let line := stripCR rawLine
  if ¬ (str "data:").isPrefixOf line then
    if line = [] then (st, [.passthrough (str "\n")])
    else (st, [.passthrough (line ++ str "\n")])
  else
    let jsonStr := jsTrim (line.drop 5)
    if jsonStr = str "[DONE]" then
      ((flushBuffer redactText st now).1,
       (flushBuffer redactText st now).2 ++ [.doneMark])
    else
      match parse jsonStr with
      | none => (st, [.passthrough (line ++ str "\n")])
      | some data =>
        let content := (extractDeltaContent st.lastMeta data).1
        let st1 := { st with lastMeta := (extractDeltaContent st.lastMeta data).2 }
        if content ≠ [] then
          let st2 := { st1 with
            buffer := st1.buffer ++ content,
            tokenCount := st1.tokenCount + estimateTokens content }
          if shouldFlush opts st2 now then flushBuffer redactText st2 now
          else (st2, [])
        else (st1, [.passthrough (line ++ str "\n")])

/-- Split a byte buffer into its complete lines and the trailing partial
line (split on newline with the last element retained). -/
def splitComplete : Str → List Str × Str
  | [] => ([], [])
  | c :: rest =>
    if c = '\n' then
      (([] : Str) :: (splitComplete rest).1, (splitComplete rest).2)
    else
      match splitComplete rest with
      | ([], r) => ([], c :: r)
      | (l :: ls, r) => ((c :: l) :: ls, r)

/-- Process a list of complete lines in order. -/
def processLines (parse : Str → Option ChunkJson) (redactText : Str → Str)
    (opts : StreamOptions) (now : Nat) :
    StreamState → List Str → StreamState × List OutItem
  | st, [] => (st, [])
  | st, l :: ls =>
    ((processLines parse redactText opts now
        (processLine parse redactText opts now st l).1 ls).1,
     (processLine parse redactText opts now st l).2
       ++ (processLines parse redactText opts now
             (processLine parse redactText opts now st l).1 ls).2)

/-- scheduleFlush: cancel any pending timer and arm a new one exactly
when text is buffered. -/
def scheduleFlush (st : StreamState) : StreamState :=
  { st with timerArmed := st.buffer.length ≠ 0 }

/-- _transform on one network chunk: reassemble lines, process the
complete ones, retain the partial tail, reschedule the flush timer. -/
def transformChunk (parse : Str → Option ChunkJson) (redactText : Str → Str)
    (opts : StreamOptions) (st : StreamState) (chunk : Str) (now : Nat) :
    StreamState × List OutItem :=
  let lines := (splitComplete (st.lineBuffer ++ chunk)).1
  let st1 := { st with lineBuffer := (splitComplete (st.lineBuffer ++ chunk)).2 }
  (scheduleFlush (processLines parse redactText opts now st1 lines).1,
   (processLines parse redactText opts now st1 lines).2)

/-- The flush-timer callback firing (setTimeout body running
flushBuffer); a cancelled or absent timer does nothing. -/
def timerFire (redactText : Str → Str) (st : StreamState) (now : Nat) :
    StreamState × List OutItem :=
  if st.timerArmed then
    flushBuffer redactText { st with timerArmed := false } now
  else (st, [])

/-- One scheduler event: a network chunk arrival or a timer callback. -/
inductive StreamEvent where
  | chunk (s : Str) (now : Nat)
  | timer (now : Nat)

/-- The state/output effect of one scheduler event. -/
def stepEvent (parse : Str → Option ChunkJson) (redactText : Str → Str)
    (opts : StreamOptions) (st : StreamState) :
    StreamEvent → StreamState × List OutItem
  | .chunk s now => transformChunk parse redactText opts st s now
  | .timer now => timerFire redactText st now

/-- Run the transformer over a list of scheduler events. -/
def runEvents (parse : Str → Option ChunkJson) (redactText : Str → Str)
    (opts : StreamOptions) :
    StreamState → List StreamEvent → StreamState × List OutItem
  | st, [] => (st, [])
  | st, ev :: evs =>
    ((runEvents parse redactText opts
        (stepEvent parse redactText opts st ev).1 evs).1,
     (stepEvent parse redactText opts st ev).2
       ++ (runEvents parse redactText opts
             (stepEvent parse redactText opts st ev).1 evs).2)

/-- _flush on transport EOF: cancel the timer, push any partial line
verbatim, then force-flush the buffered text. -/
def finalDrain (redactText : Str → Str) (st : StreamState) (now : Nat) :
    StreamState × List OutItem :=
  let st0 := { st with timerArmed := false }
  let st1 :=
    if st0.lineBuffer ≠ [] then { st0 with lineBuffer := ([] : Str) } else st0
  let outs1 : List OutItem :=
    if st0.lineBuffer ≠ [] then [OutItem.passthrough st0.lineBuffer] else []
  ((flushBuffer redactText st1 now).1,
   outs1 ++ (flushBuffer redactText st1 now).2)

/-- A whole stream consumption: events then terminal drain. -/
def runStream (parse : Str → Option ChunkJson) (redactText : Str → Str)
    (opts : StreamOptions) (now0 : Nat) (events : List StreamEvent)
    (endNow : Nat) : List OutItem :=
  (runEvents parse redactText opts (initStreamState now0) events).2
    ++ (finalDrain redactText
          (runEvents parse redactText opts (initStreamState now0) events).1
          endNow).2

/-- Text contents of the emitted redacted delta frames, in order. -/
def deltaTexts (outs : List OutItem) : List Str :=
  outs.filterMap (fun o =>
    match o with
    | .frame f => some f.content
    | _ => none)

/-- Classification of one complete input line as a text delta: a data
line (after stripping a trailing CR) that is not the terminator, parses,
has a choice, and carries non-empty content. -/
def lineDelta (parse : Str → Option ChunkJson) (rawLine : Str) : Option Str :=
  let line := stripCR rawLine
  if ¬ (str "data:").isPrefixOf line then none
  else
    let jsonStr := jsTrim (line.drop 5)
    if jsonStr = str "[DONE]" then none
    else
      match parse jsonStr with
      | none => none
      | some data =>
        match data.choices with
        | [] => none
        | choice :: _ =>
          match choice.content with
          | some c => if c ≠ [] then some c else none
          | none => none

/-- All chunk payload bytes of an event list, concatenated. -/
def eventBytes (events : List StreamEvent) : Str :=
  (events.map (fun ev =>
    match ev with
    | .chunk s _ => s
    | .timer _ => [])).foldr (· ++ ·) []

/-- The input delta texts of a whole stream: the delta contents of the
complete lines of the concatenated chunk bytes, in order. -/
def inputDeltas (parse : Str → Option ChunkJson) (events : List StreamEvent) :
    List Str :=
  ((splitComplete (eventBytes events)).1).filterMap (lineDelta parse)

/-- Concatenation of a list of strings. -/
def strConcat (l : List Str) : Str := l.foldr (· ++ ·) []

/-! Concrete collaborator instantiations used to exercise the streaming
pipeline end to end: a two-frame stream whose payloads A and B carry the
deltas of one sentence followed by a name, and a token classifier that
recognises the name only when it sees the full concatenated sentence
(multi-token context), as a contextual model does. -/

/-- Concrete JSON codec: payload A is a delta with the assistant role
and text of one sentence opening; payload B carries a following name. -/
def parseAB (s : Str) : Option ChunkJson :=
  if s = str "A" then
    some ⟨some (str "id1"), some (str "m"), some 1,
      [⟨some 0, some (str "assistant"), some (str "Hi. ")⟩]⟩
  else if s = str "B" then
    some ⟨some (str "id1"), some (str "m"), some 1,
      [⟨some 0, none, some (str "Bob")⟩]⟩
  else none

/-- Concrete classifier: labels the name token only in the context of
the full concatenated text. -/
def pipelineAB (s : Str) : List RawToken :=
  if s = str "Hi. Bob" then [⟨str "B-GIVENNAME", str " Bob", 1, 0⟩] else []

/-- Concrete orchestrator options (simple redaction markers). -/
def optsAB : RedactionOptions := ⟨false, str "salt", 500, FailStrategy.closed⟩

/-- The redaction collaborator of the stream under these options: the
text field of a successful redact call. -/
def redactAB (s : Str) : Str :=
  match redact (fun _ _ => []) optsAB s (.completed (pipelineAB s)) with
  | .ok r => r.text
  | .error _ => s

/-! ## Numeral round-trip lemmas -/

theorem digitChar_isDigit (d : Nat) (h : d < 10) : (digitChar d).isDigit = true := by
  interval_cases d <;> decide

theorem digitChar_toNat (d : Nat) (h : d < 10) :
    (digitChar d).toNat = '0'.toNat + d := by
  interval_cases d <;> decide

theorem natToStrAux_fuel_irrel :
    ∀ fuel fuel' n : Nat, n < fuel → n < fuel' →
      natToStrAux fuel n = natToStrAux fuel' n := by
  intro fuel
  induction fuel with
  | zero => intro fuel' n h; omega
  | succ fuel ih =>
    intro fuel' n h h'
    cases fuel' with
    | zero => omega
    | succ fuel' =>
      by_cases h10 : n < 10
      · simp [natToStrAux, h10]
      · have hdiv : n / 10 < n := Nat.div_lt_self (by omega) (by omega)
        simp only [natToStrAux, if_neg h10]
        rw [ih fuel' (n / 10) (by omega) (by omega)]

/-- Unfolding equation of natToStr. -/
theorem natToStr_eq (n : Nat) :
    natToStr n =
      if n < 10 then [digitChar n]
      else natToStr (n / 10) ++ [digitChar (n % 10)] := by
  by_cases h10 : n < 10
  · simp [natToStr, natToStrAux, h10]
  · have hdiv : n / 10 < n := Nat.div_lt_self (by omega) (by omega)
    simp only [natToStr, natToStrAux, if_neg h10]
    rw [natToStrAux_fuel_irrel n (n / 10 + 1) (n / 10) (by omega) (by omega)]
    rfl

theorem natToStr_ne_nil (n : Nat) : natToStr n ≠ [] := by
  rw [natToStr_eq]
  split <;> simp

theorem natToStr_all_digits (n : Nat) : ∀ c ∈ natToStr n, c.isDigit = true := by
  induction n using Nat.strong_induction_on with
  | _ n ih =>
    rw [natToStr_eq]
    by_cases h : n < 10
    · rw [if_pos h]
      intro c hc
      simp only [List.mem_singleton] at hc
      exact hc ▸ digitChar_isDigit n h
    · rw [if_neg h]
      intro c hc
      rcases List.mem_append.1 hc with h1 | h2
      · exact ih (n / 10) (Nat.div_lt_self (by omega) (by omega)) c h1
      · simp only [List.mem_singleton] at h2
        exact h2 ▸ digitChar_isDigit _ (Nat.mod_lt _ (by omega))

/-- The accumulator step of jsParseIntDec. -/
theorem natToStr_foldl (n : Nat) : ∀ acc : Nat,
    (natToStr n).foldl (fun acc c => acc * 10 + (c.toNat - '0'.toNat)) acc
      = acc * 10 ^ (natToStr n).length + n := by
  induction n using Nat.strong_induction_on with
  | _ n ih =>
    intro acc
    rw [natToStr_eq]
    by_cases h : n < 10
    · rw [if_pos h]
      simp [digitChar_toNat n h]
    · rw [if_neg h]
      rw [List.foldl_append, ih (n / 10) (Nat.div_lt_self (by omega) (by omega)) acc]
      simp only [List.foldl_cons, List.foldl_nil, List.length_append,
        List.length_singleton]
      rw [digitChar_toNat _ (Nat.mod_lt _ (by omega))]
      have hdm := Nat.div_add_mod n 10
      ring_nf
      omega

theorem jsParseIntDec_natToStr (n : Nat) : jsParseIntDec (natToStr n) = some n := by
  unfold jsParseIntDec
  rw [List.takeWhile_eq_self_iff.2 (natToStr_all_digits n)]
  rw [if_neg (by simpa using natToStr_ne_nil n)]
  have := natToStr_foldl n 0
  simpa using this

/-! ## Store lemmas -/

theorem storeLookup_write_self (st : Store) (k : Str) (e : StoreEntry) :
    storeLookup (storeWrite st k e) k = some e := by
  induction st with
  | nil => simp [storeWrite, storeLookup]
  | cons p rest ih =>
    by_cases h : p.1 = k
    · simp [storeWrite, storeLookup, h]
    · simp [storeWrite, storeLookup, h, ih]

theorem storeLookup_erase_self (st : Store) (k : Str) :
    storeLookup (storeErase st k) k = none := by
  induction st with
  | nil => simp [storeErase, storeLookup]
  | cons p rest ih =>
    by_cases h : p.1 = k
    · simpa [storeErase, storeLookup, h] using ih
    · simpa [storeErase, storeLookup, h] using ih

/-- imGet returns exactly the live value and never changes it. -/
theorem imGet_fst (st : Store) (k : Str) (now : Nat) :
    (imGet st k now).1 = readVal st k now := by
  unfold imGet readVal
  cases storeLookup st k with
  | none => rfl
  | some e =>
    by_cases h : entryExpired e now = true
    · simp [h]
    · simp [h]

/-- After imGet, the observed key reads the same value. -/
theorem readVal_imGet_snd (st : Store) (k : Str) (now : Nat) :
    readVal (imGet st k now).2 k now = readVal st k now := by
  unfold imGet readVal
  cases hl : storeLookup st k with
  | none => simp [hl]
  | some e =>
    by_cases h : entryExpired e now = true
    · simp [hl, h, storeLookup_erase_self]
    · simp [hl, h]

/-- A freshly written entry with a ttl computed by imSet is live at the
write time. -/
theorem readVal_imSet_self (st : Store) (k v : Str) (ttl : Option Nat)
    (now : Nat) : readVal (imSet st k v ttl now) k now = some v := by
  unfold imSet readVal
  rw [storeLookup_write_self]
  cases ttl with
  | none => simp [entryExpired]
  | some t =>
    by_cases h : t ≠ 0
    · simp only [if_pos h, entryExpired]
      have : ¬ now > now + t * 1000 := by omega
      simp [this]
    · simp [if_neg h, entryExpired]

/-- The value and liveness of a key survive imExpire at the same time. -/
theorem readVal_imExpire (st : Store) (k : Str) (t now : Nat) (s : Str)
    (h : readVal st k now = some s) :
    readVal (imExpire st k t now).2 k now = some s := by
  unfold imExpire
  cases hl : storeLookup st k with
  | none => simp [readVal, hl] at h
  | some e =>
    simp only [readVal, hl] at h
    by_cases hexp : entryExpired e now = true
    · simp [hexp] at h
    · rw [Bool.not_eq_true] at hexp
      rw [hexp] at h
      simp only [Bool.false_eq_true, if_false] at h
      simp only [readVal, storeLookup_write_self]
      have hne : entryExpired ⟨e.value, some (now + t * 1000)⟩ now = false := by
        unfold entryExpired
        simp only
        by_cases hz : now + t * 1000 = 0
        · simp [hz]
        · have : ¬ now > now + t * 1000 := by omega
          simp [hz, this]
      simp [hne, h]

/-- One INCR on a well-formed risk value adds exactly one and leaves a
well-formed value. -/
theorem imIncr_step (st : Store) (k : Str) (now n : Nat)
    (h : riskValNum st k now = some n) :
    (imIncr st k now).1 = some (n + 1) ∧
    riskValNum (imIncr st k now).2 k now = some (n + 1) := by
  have hparse : jsParseIntDec (jsFalsyDefault (readVal st k now)) = some n := h
  unfold imIncr
  simp only [imGet_fst, hparse, Option.map_some]
  refine ⟨rfl, ?_⟩
  unfold riskValNum
  rw [readVal_imSet_self]
  simp only [jsFalsyDefault, if_neg (natToStr_ne_nil (n + 1))]
  exact jsParseIntDec_natToStr (n + 1)

/-- The multi-point loop adds one per round to a well-formed value. -/
theorem incrLoop_val (k : Str) (now : Nat) : ∀ (m : Nat) (st : Store) (n : Nat),
    riskValNum st k now = some n →
    riskValNum (incrLoop k now m st) k now = some (n + m) := by
  intro m
  induction m with
  | zero => intro st n h; simpa [incrLoop] using h
  | succ m ih =>
    intro st n h
    have step := imIncr_step st k now n h
    have := ih (imIncr st k now).2 (n + 1) step.2
    simpa [incrLoop, Nat.add_assoc, Nat.add_comm 1 m] using this

/-- getRiskScore reads the numeric risk value. -/
theorem getRiskScore_fst (st : Store) (sessionId : Str) (now : Nat) :
    (getRiskScore st sessionId now).1 = riskValNum st (riskKey sessionId) now := by
  unfold getRiskScore riskValNum
  rw [imGet_fst]
  cases readVal st (riskKey sessionId) now with
  | none => rfl
  | some s =>
    by_cases hs : s = []
    · simp [hs, jsFalsyDefault,
        (by decide : jsParseIntDec (str "0") = some 0)]
    · simp [hs, jsFalsyDefault]

/-- incrementRisk with at least one point on a well-formed previous
value returns previous + points (for the multi-point case the loop
accounts for the rest). -/
theorem incrementRisk_fst (st : Store) (sessionId : Str)
    (points windowMs now n : Nat) (hpts : 1 ≤ points)
    (h : riskValNum st (riskKey sessionId) now = some n) :
    (incrementRisk st sessionId points windowMs now).1 = some (n + points) := by
  have step := imIncr_step st (riskKey sessionId) now n h
  unfold incrementRisk
  by_cases hp : 1 < points
  · simp only [step.1, if_pos hp, Option.map_some', Option.some.injEq]
    omega
  · have hp1 : points = 1 := by omega
    subst hp1
    simp only [step.1, if_neg hp]

/-! ## C7: assessRisk adds the summed type weights -/

/-- Every entity contributes at least 2 points. -/
theorem entityRiskPoints_ge_two (e : PiiEntity) : 2 ≤ entityRiskPoints e := by
  unfold entityRiskPoints
  cases e.type <;> simp [PII_RISK_POINTS]

/-- C7: for every session and non-empty entity list, assessRisk returns
the session's previous score plus the sum of the entities' risk weights
(the falsy-default weight 5 cannot fire on the closed type enumeration),
and isBanned holds exactly when that sum reaches the threshold.  The
previous score is the value getRiskScore reads at the same instant; the
hypothesis that it is an actual number excludes only stores holding a
non-numeric string under the risk key, which the engine never writes. -/
theorem assessRisk_adds_weights (cfg : RiskConfig) (st : Store)
    (sessionId : Str) (entities : List PiiEntity) (now prev : Nat)
    (hne : entities ≠ [])
    (hprev : (getRiskScore st sessionId now).1 = some prev) :
    ((assessRisk cfg st sessionId entities now).1).score
        = some (prev + (entities.map entityRiskPoints).sum) ∧
    ((assessRisk cfg st sessionId entities now).1).isBanned
        = decide (cfg.threshold ≤ prev + (entities.map entityRiskPoints).sum) ∧
    ((assessRisk cfg st sessionId entities now).1).pointsAdded
        = (entities.map entityRiskPoints).sum := by
  rw [getRiskScore_fst] at hprev
  have hpts : 1 ≤ (entities.map entityRiskPoints).sum := by
    cases entities with
    | nil => exact absurd rfl hne
    | cons e es =>
      have := entityRiskPoints_ge_two e
      simp only [List.map_cons, List.sum_cons]
      omega
  have hinc := incrementRisk_fst st sessionId
    ((entities.map entityRiskPoints).sum) cfg.windowMs now prev hpts hprev
  unfold assessRisk
  simp only [if_neg hne, hinc]
  simp [jsGE]

set_option maxRecDepth 8000 in
/-- Witness: Scenario C.  Two assessRisk calls with one SSN entity in
the same window, threshold 40: scores 25 (not banned) then 50 (banned). -/
theorem assessRisk_adds_weights_witness :
    ((assessRisk ⟨40, 3600000⟩ [] (str "alice")
        [⟨SSN, str "123-45-6789", 10, 21, 1⟩] 5000).1).score = some (0 + 25) ∧
    ((assessRisk ⟨40, 3600000⟩ [] (str "alice")
        [⟨SSN, str "123-45-6789", 10, 21, 1⟩] 5000).1).isBanned = false ∧
    ((assessRisk ⟨40, 3600000⟩
        (assessRisk ⟨40, 3600000⟩ [] (str "alice")
          [⟨SSN, str "123-45-6789", 10, 21, 1⟩] 5000).2 (str "alice")
        [⟨SSN, str "123-45-6789", 10, 21, 1⟩] 6000).1).score = some (25 + 25) ∧
    ((assessRisk ⟨40, 3600000⟩
        (assessRisk ⟨40, 3600000⟩ [] (str "alice")
          [⟨SSN, str "123-45-6789", 10, 21, 1⟩] 5000).2 (str "alice")
        [⟨SSN, str "123-45-6789", 10, 21, 1⟩] 6000).1).isBanned = true := by
  have h1 := assessRisk_adds_weights ⟨40, 3600000⟩ [] (str "alice")
    [⟨SSN, str "123-45-6789", 10, 21, 1⟩] 5000 0 (by decide) (by decide)
  have h2 := assessRisk_adds_weights ⟨40, 3600000⟩
    (assessRisk ⟨40, 3600000⟩ [] (str "alice")
      [⟨SSN, str "123-45-6789", 10, 21, 1⟩] 5000).2 (str "alice")
    [⟨SSN, str "123-45-6789", 10, 21, 1⟩] 6000 25 (by decide) (by decide)
  refine ⟨h1.1, ?_, h2.1, ?_⟩
  · rw [h1.2.1]; decide
  · rw [h2.2.1]; decide

/-! ## C8: assessRisk with zero entities -/

/-- imGet leaves the store untouched unless it lazily deletes an
expired entry. -/
theorem imGet_snd_of_not_expired (st : Store) (sessionId : Str) (now : Nat)
    (h : riskEntryExpired st sessionId now = false) :
    (imGet st (riskKey sessionId) now).2 = st := by
  unfold riskEntryExpired at h
  unfold imGet
  cases hl : storeLookup st (riskKey sessionId) with
  | none => rfl
  | some e =>
    simp only [hl] at h
    simp [h]

/-- C8 counterexample: with a session whose risk entry has already
expired, the zero-entity assessment is not mutation-free — the lazy
expiry of the read deletes the stored entry, so the store after the call
differs from the store before it. -/
theorem assessRisk_empty_counterexample :
    (assessRisk ⟨40, 3600000⟩ [(str "risk:alice", ⟨str "25", some 1000⟩)]
        (str "alice") [] 2000).2
      ≠ [(str "risk:alice", ⟨str "25", some 1000⟩)] := by
  decide

/-- C8 amended: assessRisk with an empty entity list returns the current
score with pointsAdded 0 and isBanned measured against the threshold; the
stored risk state is unchanged whenever the entry has not already
expired, and in every case the observable risk score after the call
equals the score before it (an expired entry is lazily deleted by the
read, but it already read as 0). -/
theorem assessRisk_empty_read_only (cfg : RiskConfig) (st : Store)
    (sessionId : Str) (now : Nat) :
    (assessRisk cfg st sessionId [] now).1
        = ⟨(getRiskScore st sessionId now).1,
           jsGE (getRiskScore st sessionId now).1 cfg.threshold, 0⟩ ∧
    (riskEntryExpired st sessionId now = false →
      (assessRisk cfg st sessionId [] now).2 = st) ∧
    (getRiskScore (assessRisk cfg st sessionId [] now).2 sessionId now).1
        = (getRiskScore st sessionId now).1 := by
  refine ⟨rfl, ?_, ?_⟩
  · intro h
    show (getRiskScore st sessionId now).2 = st
    unfold getRiskScore
    have := imGet_snd_of_not_expired st sessionId now h
    cases (imGet st (riskKey sessionId) now).1 with
    | none => simpa using this
    | some s =>
      by_cases hs : s = [] <;> simpa [hs] using this
  · show (getRiskScore (getRiskScore st sessionId now).2 sessionId now).1 = _
    have hsnd : (getRiskScore st sessionId now).2
        = (imGet st (riskKey sessionId) now).2 := by
      unfold getRiskScore
      cases (imGet st (riskKey sessionId) now).1 with
      | none => rfl
      | some s => by_cases hs : s = [] <;> simp [hs]
    rw [hsnd, getRiskScore_fst, getRiskScore_fst]
    unfold riskValNum
    rw [readVal_imGet_snd]

/-- Witness for the amended C8 at a live entry: nothing changes. -/
theorem assessRisk_empty_read_only_witness :
    (assessRisk ⟨40, 3600000⟩ [(str "risk:bob", ⟨str "25", some 9000⟩)]
        (str "bob") [] 2000).1
      = ⟨some 25, false, 0⟩ ∧
    (assessRisk ⟨40, 3600000⟩ [(str "risk:bob", ⟨str "25", some 9000⟩)]
        (str "bob") [] 2000).2
      = [(str "risk:bob", ⟨str "25", some 9000⟩)] := by
  have h := assessRisk_empty_read_only ⟨40, 3600000⟩
    [(str "risk:bob", ⟨str "25", some 9000⟩)] (str "bob") 2000
  exact ⟨by rw [h.1]; decide, h.2.1 (by decide)⟩

/-! ## C10: a never-seen session is never banned -/

/-- C10: for a session whose risk key is absent (never incremented or
deleted) or expired, getRiskScore reads 0 and isBanned is false for
every positive threshold; clearing a session always produces such a
state. -/
theorem unseen_session_not_banned (st : Store) (sessionId : Str)
    (now threshold : Nat)
    (h : readVal st (riskKey sessionId) now = none) :
    (getRiskScore st sessionId now).1 = some 0 ∧
    (0 < threshold → (storeIsBanned st sessionId threshold now).1 = false) ∧
    (∀ st' : Store, readVal (clearRisk st' sessionId) (riskKey sessionId) now
        = none) := by
  have hscore : (getRiskScore st sessionId now).1 = some 0 := by
    rw [getRiskScore_fst]
    unfold riskValNum
    rw [h]
    decide
  refine ⟨hscore, ?_, ?_⟩
  · intro hpos
    show jsGE (getRiskScore st sessionId now).1 threshold = false
    rw [hscore]
    unfold jsGE
    simpa using by omega
  · intro st'
    unfold clearRisk imDel readVal
    rw [storeLookup_erase_self]

/-- Witness for C10 at an empty store and threshold 1. -/
theorem unseen_session_not_banned_witness :
    (getRiskScore [] (str "carol") 0).1 = some 0 ∧
    (storeIsBanned [] (str "carol") 1 0).1 = false := by
  have h := unseen_session_not_banned [] (str "carol") 0 1 (by decide)
  exact ⟨h.1, h.2.1 (by decide)⟩

/-! ## C2: the deterministic replacement generator is pure -/

/-- Reseeding first makes the generator output independent of the
incoming global generator state. -/
theorem getDeterministicReplacement_state_irrelevant
    (hmac : Str → Str → Str) (t : Str) (ty : PiiEntityType) (salt : Str)
    (s1 s2 : FakerState) :
    ((getDeterministicReplacement hmac t ty salt).run s1).1
      = ((getDeterministicReplacement hmac t ty salt).run s2).1 := by
  cases ty <;> rfl

/-- C2: two calls of getDeterministicReplacement on the identical
(text, type, salt) triple return the identical string, whatever global
generator state each call starts from (also covering back-to-back calls,
where the second starts from the state the first left behind), for every
keyed-hash collaborator. -/
theorem deterministic_replacement_pure
    (hmac : Str → Str → Str) (t : Str) (ty : PiiEntityType) (salt : Str)
    (s1 s2 : FakerState) :
    ((getDeterministicReplacement hmac t ty salt).run s1).1
      = ((getDeterministicReplacement hmac t ty salt).run s2).1 ∧
    ((getDeterministicReplacement hmac t ty salt).run
        ((getDeterministicReplacement hmac t ty salt).run s1).2).1
      = ((getDeterministicReplacement hmac t ty salt).run s1).1 := by
  exact ⟨getDeterministicReplacement_state_irrelevant hmac t ty salt s1 s2,
    getDeterministicReplacement_state_irrelevant hmac t ty salt _ s1⟩

/-! ## C9: password marker and default branch -/

/-- C9: the PASSWORD case returns the constant redaction marker for
every text, salt and generator state; and every type lies in the
per-type generation table (so the claim's default case — a bracketed
type-name marker for types outside the table — holds vacuously: the
switch of getDeterministicReplacement is exhaustive over the closed
enumeration and its default branch is unreachable). -/
theorem password_constant_and_default
    (hmac : Str → Str → Str) (t salt : Str) (s : FakerState)
    (ty : PiiEntityType) :
    ((getDeterministicReplacement hmac t PASSWORD salt).run s).1
      = str "[REDACTED_PASSWORD]" ∧
    (ty ∈ generationTableTypes ∨
      ((getDeterministicReplacement hmac t ty salt).run s).1
        = '[' :: piiTypeName ty ++ [']']) := by
  refine ⟨rfl, Or.inl ?_⟩
  cases ty <;> simp [generationTableTypes]

/-! ## C3: timeout handling per failStrategy -/

/-- C3: on non-blank input, an inference timeout yields the original
text with no entities under failStrategy open and propagates the
InferenceTimeout error under failStrategy closed; any other collaborator
failure propagates whatever the strategy. -/
theorem timeout_fail_strategy (hmac : Str → Str → Str)
    (opts : RedactionOptions) (text : Str) (h : jsTrim text ≠ []) :
    redact hmac opts text .timedOut
      = (if opts.failStrategy = .closed then
           .error (.inferenceTimeout opts.timeoutMs)
         else .ok ⟨text, [], opts.timeoutMs⟩) ∧
    (∀ msg, redact hmac opts text (.failed msg)
      = .error (.otherFailure msg)) := by
  have hblank : ¬ (text = [] ∨ jsTrim text = []) := by
    rintro (rfl | hb)
    · exact h rfl
    · exact h hb
  constructor
  · unfold redact
    rw [if_neg hblank]
  · intro msg
    unfold redact
    rw [if_neg hblank]

/-- Witness for C3: a concrete non-blank text under both strategies and
a distinct collaborator failure. -/
theorem timeout_fail_strategy_witness :
    redact (fun _ _ => []) ⟨true, str "salt", 500, .opn⟩ (str "hello")
        .timedOut
      = .ok ⟨str "hello", [], 500⟩ ∧
    redact (fun _ _ => []) ⟨true, str "salt", 500, .closed⟩ (str "hello")
        .timedOut
      = .error (.inferenceTimeout 500) ∧
    redact (fun _ _ => []) ⟨true, str "salt", 500, .opn⟩ (str "hello")
        (.failed (str "boom"))
      = .error (.otherFailure (str "boom")) := by
  have ho := timeout_fail_strategy (fun _ _ => [])
    ⟨true, str "salt", 500, .opn⟩ (str "hello") (by decide)
  have hc := timeout_fail_strategy (fun _ _ => [])
    ⟨true, str "salt", 500, .closed⟩ (str "hello") (by decide)
  exact ⟨by simpa using ho.1, by simpa using hc.1, ho.2 (str "boom")⟩

/-! ## Stream lemmas -/

theorem deltaTexts_append (a b : List OutItem) :
    deltaTexts (a ++ b) = deltaTexts a ++ deltaTexts b := by
  unfold deltaTexts
  exact List.filterMap_append a b _

theorem formatFrame_content (st : StreamState) (t : Str) :
    (formatFrame st t).1.content = t := by
  unfold formatFrame
  split <;> rfl

theorem formatFrame_buffer (st : StreamState) (t : Str) :
    (formatFrame st t).2.buffer = st.buffer := by
  unfold formatFrame
  split <;> rfl

/-- flushBuffer emits exactly the redacted buffer (when non-empty) and
leaves the buffer empty. -/
theorem flushBuffer_spec (redactText : Str → Str) (st : StreamState)
    (now : Nat) :
    deltaTexts (flushBuffer redactText st now).2
      = (if st.buffer = [] then [] else [redactText st.buffer]) ∧
    (flushBuffer redactText st now).1.buffer = [] := by
  by_cases h : st.buffer = []
  · simp [flushBuffer, h, deltaTexts]
  · unfold flushBuffer
    rw [if_neg h]
    constructor
    · simp [deltaTexts, formatFrame_content, h]
    · simp [formatFrame_buffer]

/-! ## C6: terminal drain flushes buffered text before the terminator -/

/-- C6: a data: [DONE] frame first flushes any buffered text through
redaction as a delta frame, emitted strictly before the terminator, and
empties the buffer; on transport EOF the final drain behaves the same
(after pushing a dangling partial line verbatim), so trailing buffered
text is never dropped — in both cases with no flush trigger required. -/
theorem terminal_drain_flush (parse : Str → Option ChunkJson)
    (redactText : Str → Str) (opts : StreamOptions) (st : StreamState)
    (now : Nat) :
    (processLine parse redactText opts now st (str "data: [DONE]")).2
        = (flushBuffer redactText st now).2 ++ [OutItem.doneMark] ∧
    deltaTexts (processLine parse redactText opts now st
        (str "data: [DONE]")).2
        = (if st.buffer = [] then [] else [redactText st.buffer]) ∧
    (processLine parse redactText opts now st (str "data: [DONE]")).1.buffer
        = [] ∧
    deltaTexts (finalDrain redactText st now).2
        = (if st.buffer = [] then [] else [redactText st.buffer]) ∧
    (finalDrain redactText st now).1.buffer = [] := by
  have heq : processLine parse redactText opts now st (str "data: [DONE]")
      = ((flushBuffer redactText st now).1,
         (flushBuffer redactText st now).2 ++ [OutItem.doneMark]) := rfl
  have hflush := flushBuffer_spec redactText st now
  refine ⟨by rw [heq], ?_, ?_, ?_, ?_⟩
  · rw [heq]
    simp only [deltaTexts_append, hflush.1]
    simp [deltaTexts]
  · rw [heq]
    exact hflush.2
  · unfold finalDrain
    by_cases hl : st.lineBuffer ≠ []
    · simp only [if_pos hl, deltaTexts_append]
      have := flushBuffer_spec redactText
        { st with timerArmed := false, lineBuffer := [] } now
      simp only [this.1]
      simp [deltaTexts]
    · simp only [if_neg hl, deltaTexts_append]
      have := flushBuffer_spec redactText { st with timerArmed := false } now
      simp only [this.1]
      simp [deltaTexts]
  · unfold finalDrain
    by_cases hl : st.lineBuffer ≠ []
    · simp only [if_pos hl]
      exact (flushBuffer_spec redactText
        { st with timerArmed := false, lineBuffer := [] } now).2
    · simp only [if_neg hl]
      exact (flushBuffer_spec redactText { st with timerArmed := false } now).2

/-! ## C1: entity locator soundness -/

theorem EntDisjoint_symm {a b : PiiEntity} (h : EntDisjoint a b) :
    EntDisjoint b a := fun hc => h ⟨hc.2, hc.1⟩

theorem idxOfAux_some : ∀ (hay tgt : Str) (i : Nat),
    idxOfAux hay tgt = some i → tgt.isPrefixOf (hay.drop i) = true := by
  intro hay
  induction hay with
  | nil =>
    intro tgt i h
    unfold idxOfAux at h
    by_cases hp : tgt.isPrefixOf ([] : Str) = true
    · rw [if_pos hp] at h
      simp only [Option.some.injEq] at h
      subst h
      simpa using hp
    · simp only [hp] at h
      simp at h
  | cons c t ih =>
    intro tgt i h
    unfold idxOfAux at h
    by_cases hp : tgt.isPrefixOf (c :: t) = true
    · rw [if_pos hp] at h
      simp only [Option.some.injEq] at h
      subst h
      simpa using hp
    · simp only [hp] at h
      simp only [Bool.false_eq_true, if_false, Option.map_eq_some'] at h
      obtain ⟨j, hj, rfl⟩ := h
      simpa using ih tgt j hj

theorem prefix_drop_bound {hay tgt : Str} {i : Nat}
    (hp : tgt.isPrefixOf (hay.drop i) = true) (hne : tgt ≠ []) :
    i + tgt.length ≤ hay.length := by
  have hpre : tgt <+: hay.drop i := List.isPrefixOf_iff_prefix.1 hp
  have hlen : tgt.length ≤ (hay.drop i).length := hpre.length_le
  rw [List.length_drop] at hlen
  by_cases hi : i ≤ hay.length
  · omega
  · exfalso
    have : hay.drop i = [] := List.drop_eq_nil_of_le (by omega)
    rw [this] at hpre
    exact hne (List.prefix_nil.1 hpre)

theorem strIndexOfFrom_some (hay tgt : Str) (start i : Nat)
    (h : strIndexOfFrom hay tgt start = some i) :
    start ≤ i ∧ tgt.isPrefixOf (hay.drop i) = true := by
  unfold strIndexOfFrom at h
  simp only [Option.map_eq_some'] at h
  obtain ⟨j, hj, rfl⟩ := h
  have := idxOfAux_some (hay.drop start) tgt j hj
  rw [List.drop_drop] at this
  constructor
  · omega
  · rw [Nat.add_comm] at this
    exact this

theorem findPositionAux_some (lower target : Str) (searchLen textLen : Nat)
    (used : List (Nat × Nat)) :
    ∀ (fuel start s e : Nat),
      findPositionAux lower target searchLen textLen used fuel start
          = some (s, e) →
      e = s + searchLen ∧ target.isPrefixOf (lower.drop s) = true ∧
      ∀ p ∈ used, ¬(s < p.2 ∧ e > p.1) := by
  intro fuel
  induction fuel with
  | zero => intro start s e h; simp [findPositionAux] at h
  | succ fuel ih =>
    intro start s e h
    unfold findPositionAux at h
    by_cases hlt : start < textLen
    · rw [if_pos hlt] at h
      cases hidx : strIndexOfFrom lower target start with
      | none => rw [hidx] at h; simp at h
      | some s' =>
        rw [hidx] at h
        simp only at h
        by_cases hov : used.any (rangesOverlap s' (s' + searchLen)) = true
        · rw [if_pos hov] at h
          exact ih (s' + 1) s e h
        · rw [if_neg hov] at h
          simp only [Option.some.injEq, Prod.mk.injEq] at h
          obtain ⟨hs, he⟩ := h
          subst hs
          subst he
          have hfind := strIndexOfFrom_some lower target start s' hidx
          refine ⟨rfl, hfind.2, ?_⟩
          intro p hp hc
          apply hov
          rw [List.any_eq_true]
          refine ⟨p, hp, ?_⟩
          unfold rangesOverlap
          simp only [Bool.and_eq_true, decide_eq_true_eq]
          exact ⟨hc.1, hc.2⟩
    · rw [if_neg hlt] at h
      simp at h

theorem findPosition_some (search text : Str) (used : List (Nat × Nat))
    (s e : Nat) (hne : search ≠ [])
    (h : findPosition search text used = some (s, e)) :
    s < e ∧ e ≤ text.length ∧ ∀ p ∈ used, ¬(s < p.2 ∧ e > p.1) := by
  unfold findPosition at h
  have := findPositionAux_some (jsToLower text) (jsToLower search)
    search.length text.length used (text.length + 1) 0 s e h
  obtain ⟨he, hp, hover⟩ := this
  have hlen : (jsToLower search).length = search.length := List.length_map _ _
  have htne : jsToLower search ≠ [] := by
    intro hz
    apply hne
    have := congrArg List.length hz
    rw [hlen] at this
    exact List.length_eq_zero.1 this
  have hb := prefix_drop_bound hp htne
  have hlen2 : (jsToLower text).length = text.length := List.length_map _ _
  rw [hlen, hlen2] at hb
  have hslen : 0 < search.length := List.length_pos.2 hne
  exact ⟨by omega, by omega, hover⟩

theorem finalizeGroup_some (g : TokenGroup) (text : Str)
    (used : List (Nat × Nat)) (ent : PiiEntity)
    (h : finalizeGroup g text used = some ent) :
    ent.start < ent.«end» ∧ ent.«end» ≤ text.length ∧
    ∀ p ∈ used, ¬(ent.start < p.2 ∧ ent.«end» > p.1) := by
  unfold finalizeGroup at h
  cases hty : labelToPiiType g.label with
  | none => rw [hty] at h; simp at h
  | some piiType =>
    rw [hty] at h
    simp only at h
    by_cases hlen : (jsTrim (joinWords g.words)).length < 2
    · rw [if_pos hlen] at h; simp at h
    · rw [if_neg hlen] at h
      cases hpos : findPosition (jsTrim (joinWords g.words)) text used with
      | none => rw [hpos] at h; simp at h
      | some pos =>
        obtain ⟨s, e⟩ := pos
        rw [hpos] at h
        simp only [Option.some.injEq] at h
        have hne : jsTrim (joinWords g.words) ≠ [] := by
          intro hz
          rw [hz] at hlen
          simp at hlen
        have := findPosition_some _ text used s e hne hpos
        rw [← h]
        exact this

theorem closeGroup_inv (text : Str) (es : List PiiEntity)
    (us : List (Nat × Nat)) (g : TokenGroup) (hinv : LocInv text es us) :
    LocInv text (closeGroup text es us g).1 (closeGroup text es us g).2 := by
  unfold closeGroup
  cases hf : finalizeGroup g text us with
  | none => exact hinv
  | some ent =>
    obtain ⟨hmap, hbounds, hpair⟩ := hinv
    have hent := finalizeGroup_some g text us ent hf
    refine ⟨?_, ?_, ?_⟩
    · simp [hmap]
    · intro e he
      rcases List.mem_append.1 he with h1 | h2
      · exact hbounds e h1
      · simp only [List.mem_singleton] at h2
        subst h2
        exact ⟨hent.1, hent.2.1⟩
    · rw [EntNonOverlapping, List.pairwise_append]
      refine ⟨hpair, List.pairwise_singleton _ _, ?_⟩
      intro a ha b hb
      simp only [List.mem_singleton] at hb
      subst hb
      apply EntDisjoint_symm
      have : (a.start, a.«end») ∈ us := by
        rw [hmap]
        exact List.mem_map.2 ⟨a, ha, rfl⟩
      exact hent.2.2 (a.start, a.«end») this

theorem closeStep_inv (text : Str) (st : LocState)
    (hinv : LocInv text st.entities st.used) :
    LocInv text (closeStep text st).entities (closeStep text st).used := by
  cases hg : st.group with
  | some g =>
    simp only [closeStep, hg]
    exact closeGroup_inv text st.entities st.used g hinv
  | none =>
    simp only [closeStep, hg]
    exact hinv

theorem stepToken_inv (text : Str) (st : LocState) (tok : RawToken)
    (hinv : LocInv text st.entities st.used) :
    LocInv text (stepToken text st tok).entities (stepToken text st tok).used := by
  cases hpl : parseLabel tok.entity with
  | none =>
    simp only [stepToken, hpl]
    exact closeStep_inv text st hinv
  | some l =>
    cases hlt : labelToPiiType l with
    | none =>
      simp only [stepToken, hpl, hlt]
      exact closeStep_inv text st hinv
    | some ty =>
      cases hg : st.group with
      | none =>
        simp only [stepToken, hpl, hlt, hg]
        exact hinv
      | some g =>
        by_cases hc : g.label ≠ l ∨ tok.index > g.lastIdx + 1
        · simp only [stepToken, hpl, hlt, hg, if_pos hc]
          exact closeGroup_inv text st.entities st.used g hinv
        · simp only [stepToken, hpl, hlt, hg, if_neg hc]
          exact hinv

theorem foldl_stepToken_inv (text : Str) :
    ∀ (tokens : List RawToken) (st : LocState),
      LocInv text st.entities st.used →
      LocInv text (tokens.foldl (stepToken text) st).entities
        (tokens.foldl (stepToken text) st).used := by
  intro tokens
  induction tokens with
  | nil => intro st h; exact h
  | cons tok rest ih =>
    intro st h
    exact ih (stepToken text st tok) (stepToken_inv text st tok h)

/-- The final flush of an open group preserves bounds and disjointness
(the recorded ranges are not extended, which is harmless since the scan
ends here). -/
theorem groupAndLocateEntities_inv (tokens : List RawToken) (text : Str) :
    EntInBounds text (groupAndLocateEntities tokens text) ∧
    EntNonOverlapping (groupAndLocateEntities tokens text) := by
  have hinv0 : LocInv text ([] : List PiiEntity) [] :=
    ⟨rfl, by intro e he; simp at he, List.Pairwise.nil⟩
  have hinv := foldl_stepToken_inv text tokens ⟨[], [], none⟩ hinv0
  cases hg : (tokens.foldl (stepToken text) ⟨[], [], none⟩).group with
  | none =>
    simp only [groupAndLocateEntities, hg]
    exact ⟨hinv.2.1, hinv.2.2⟩
  | some g =>
    cases hf : finalizeGroup g text
        (tokens.foldl (stepToken text) ⟨[], [], none⟩).used with
    | none =>
      simp only [groupAndLocateEntities, hg, hf]
      exact ⟨hinv.2.1, hinv.2.2⟩
    | some ent =>
      simp only [groupAndLocateEntities, hg, hf]
      obtain ⟨hmap, hbounds, hpair⟩ := hinv
      have hent := finalizeGroup_some g text _ ent hf
      constructor
      · intro e he
        rcases List.mem_append.1 he with h1 | h2
        · exact hbounds e h1
        · simp only [List.mem_singleton] at h2
          subst h2
          exact ⟨hent.1, hent.2.1⟩
      · rw [EntNonOverlapping, List.pairwise_append]
        refine ⟨hpair, List.pairwise_singleton _ _, ?_⟩
        intro a ha b hb
        simp only [List.mem_singleton] at hb
        subst hb
        apply EntDisjoint_symm
        have : (a.start, a.«end») ∈
            (tokens.foldl (stepToken text) ⟨[], [], none⟩).used := by
          rw [hmap]
          exact List.mem_map.2 ⟨a, ha, rfl⟩
        exact hent.2.2 (a.start, a.«end») this

/-- C1: every entity located by groupAndLocateEntities satisfies
0 ≤ start < end ≤ length of the text, and the returned entities are
pairwise non-overlapping: for all i ≠ j the spans of entities i and j
do not intersect. -/
theorem entity_locator_sound (tokens : List RawToken) (text : Str) :
    (∀ e ∈ groupAndLocateEntities tokens text,
        e.start < e.«end» ∧ e.«end» ≤ text.length) ∧
    (∀ i j : Fin (groupAndLocateEntities tokens text).length, i ≠ j →
      ¬(((groupAndLocateEntities tokens text).get i).start
            < ((groupAndLocateEntities tokens text).get j).«end» ∧
        ((groupAndLocateEntities tokens text).get i).«end»
            > ((groupAndLocateEntities tokens text).get j).start)) := by
  obtain ⟨hbounds, hpair⟩ := groupAndLocateEntities_inv tokens text
  refine ⟨hbounds, ?_⟩
  intro i j hij
  rcases Nat.lt_or_ge i.1 j.1 with hlt | hge
  · exact (List.pairwise_iff_get.1 hpair) i j hlt
  · have hlt : j.1 < i.1 := by
      rcases Nat.lt_or_ge j.1 i.1 with h | h
      · exact h
      · exact absurd (Fin.ext (by omega)) hij
    exact EntDisjoint_symm ((List.pairwise_iff_get.1 hpair) j i hlt)

/-- Witness: Scenario B — two PERSON runs with non-contiguous indices
over a text with a duplicated literal resolve to two distinct spans, in
bounds and non-overlapping. -/
theorem entity_locator_sound_witness :
    (((groupAndLocateEntities
        [⟨str "B-GIVENNAME", str " Alice", 1, 0⟩,
         ⟨str "B-GIVENNAME", str " Alice", 1, 2⟩]
        (str "Alice met Alice")).get
          ⟨0, by decide⟩).start
      < ((groupAndLocateEntities
        [⟨str "B-GIVENNAME", str " Alice", 1, 0⟩,
         ⟨str "B-GIVENNAME", str " Alice", 1, 2⟩]
        (str "Alice met Alice")).get
          ⟨0, by decide⟩).«end») ∧
    ¬(((groupAndLocateEntities
        [⟨str "B-GIVENNAME", str " Alice", 1, 0⟩,
         ⟨str "B-GIVENNAME", str " Alice", 1, 2⟩]
        (str "Alice met Alice")).get
          ⟨0, by decide⟩).start
        < ((groupAndLocateEntities
        [⟨str "B-GIVENNAME", str " Alice", 1, 0⟩,
         ⟨str "B-GIVENNAME", str " Alice", 1, 2⟩]
        (str "Alice met Alice")).get
          ⟨1, by decide⟩).«end» ∧
      ((groupAndLocateEntities
        [⟨str "B-GIVENNAME", str " Alice", 1, 0⟩,
         ⟨str "B-GIVENNAME", str " Alice", 1, 2⟩]
        (str "Alice met Alice")).get
          ⟨0, by decide⟩).«end»
        > ((groupAndLocateEntities
        [⟨str "B-GIVENNAME", str " Alice", 1, 0⟩,
         ⟨str "B-GIVENNAME", str " Alice", 1, 2⟩]
        (str "Alice met Alice")).get
          ⟨1, by decide⟩).start) := by
  refine ⟨?_, ?_⟩
  · exact ((entity_locator_sound _ _).1 _ (List.get_mem _ 0 (by decide))).1
  · exact (entity_locator_sound
      [⟨str "B-GIVENNAME", str " Alice", 1, 0⟩,
       ⟨str "B-GIVENNAME", str " Alice", 1, 2⟩]
      (str "Alice met Alice")).2 ⟨0, by decide⟩ ⟨1, by decide⟩ (by decide)

/-! ## C4: applyRedactions replaces spans right-to-left -/

/-- Descending order by start offset (the sort comparator). -/
def DescByStart (a b : PiiEntity) : Prop := b.start ≤ a.start

theorem insertDesc_perm (e : PiiEntity) :
    ∀ l : List PiiEntity, (insertDesc e l).Perm (e :: l) := by
  intro l
  induction l with
  | nil => simp [insertDesc]
  | cons a t ih =>
    unfold insertDesc
    by_cases h : a.start ≤ e.start
    · rw [if_pos h]
    · rw [if_neg h]
      exact (ih.cons a).trans (List.Perm.swap e a t)

theorem sortByStartDesc_perm (l : List PiiEntity) :
    (sortByStartDesc l).Perm l := by
  induction l with
  | nil => simp [sortByStartDesc]
  | cons a t ih =>
    exact (insertDesc_perm a (sortByStartDesc t)).trans (ih.cons a)

theorem insertDesc_sorted (e : PiiEntity) :
    ∀ l : List PiiEntity, l.Pairwise DescByStart →
      (insertDesc e l).Pairwise DescByStart := by
  intro l
  induction l with
  | nil => intro _; simp [insertDesc, DescByStart]
  | cons a t ih =>
    intro hp
    unfold insertDesc
    by_cases h : a.start ≤ e.start
    · rw [if_pos h]
      refine List.Pairwise.cons ?_ hp
      intro b hb
      rcases List.mem_cons.1 hb with rfl | hbt
      · exact h
      · have := (List.pairwise_cons.1 hp).1 b hbt
        unfold DescByStart at this ⊢
        omega
    · rw [if_neg h]
      have hp' := List.pairwise_cons.1 hp
      refine List.Pairwise.cons ?_ (ih hp'.2)
      intro b hb
      have := (insertDesc_perm e t).mem_iff.1 hb
      rcases List.mem_cons.1 this with rfl | hbt
      · unfold DescByStart
        omega
      · exact hp'.1 b hbt

theorem sortByStartDesc_sorted (l : List PiiEntity) :
    (sortByStartDesc l).Pairwise DescByStart := by
  induction l with
  | nil => simp [sortByStartDesc]
  | cons a t ih => exact insertDesc_sorted a (sortByStartDesc t) ih

/-- Splicing an entity whose span lies inside the left part touches only
the left part. -/
theorem spliceOne_append (rep : PiiEntity → Str) (t1 t2 : Str)
    (e : PiiEntity) (h : e.«end» ≤ t1.length) (hs : e.start ≤ e.«end») :
    spliceOne rep (t1 ++ t2) e = spliceOne rep t1 e ++ t2 := by
  unfold spliceOne
  rw [List.take_append_of_le_length (by omega),
    List.drop_append_of_le_length h]
  simp [List.append_assoc]

theorem spliceOne_length_ge (rep : PiiEntity → Str) (t : Str)
    (e : PiiEntity) (h : e.start ≤ t.length) :
    e.start ≤ (spliceOne rep t e).length := by
  unfold spliceOne
  simp only [List.length_append, List.length_take]
  omega

/-- In a descending, pairwise-disjoint run, every later span ends at or
before the head's start. -/
theorem later_ends_before (m : PiiEntity) (D : List PiiEntity)
    (hdesc : (m :: D).Pairwise DescByStart)
    (hdis : (m :: D).Pairwise EntDisjoint)
    (hne : ∀ e ∈ m :: D, e.start < e.«end») :
    ∀ e ∈ D, e.«end» ≤ m.start := by
  intro e he
  have h1 : e.start ≤ m.start := (List.pairwise_cons.1 hdesc).1 e he
  have h2 : EntDisjoint m e := (List.pairwise_cons.1 hdis).1 e he
  have h3 := hne m (List.mem_cons_self m D)
  have h4 := hne e (List.mem_cons_of_mem m he)
  unfold EntDisjoint at h2
  by_cases hc : e.«end» ≤ m.start
  · exact hc
  · exfalso
    exact h2 ⟨by omega, by omega⟩

theorem foldl_splice_append (rep : PiiEntity → Str) :
    ∀ (D : List PiiEntity) (t1 t2 : Str),
      D.Pairwise DescByStart → D.Pairwise EntDisjoint →
      (∀ e ∈ D, e.start < e.«end» ∧ e.«end» ≤ t1.length) →
      D.foldl (spliceOne rep) (t1 ++ t2)
        = D.foldl (spliceOne rep) t1 ++ t2 := by
  intro D
  induction D with
  | nil => intro t1 t2 _ _ _; rfl
  | cons e D2 ih =>
    intro t1 t2 hdesc hdis hb
    have hbe := hb e (List.mem_cons_self e D2)
    have hsp := spliceOne_append rep t1 t2 e hbe.2 (by omega)
    simp only [List.foldl_cons, hsp]
    refine ih (spliceOne rep t1 e) t2 (List.pairwise_cons.1 hdesc).2
      (List.pairwise_cons.1 hdis).2 ?_
    intro e' he'
    have hlater := later_ends_before e D2 hdesc hdis
      (fun x hx => (hb x hx).1) e' he'
    have hstart : e.start ≤ t1.length := by omega
    have := spliceOne_length_ge rep t1 e hstart
    exact ⟨(hb e' (List.mem_cons_of_mem e he')).1, by omega⟩

/-- Appending the rightmost entity to the rendering splits the text at
its span. -/
theorem replaceSpansAsc_append_last (rep : PiiEntity → Str)
    (m : PiiEntity) :
    ∀ (A : List PiiEntity) (text : Str) (pos : Nat),
      (∀ e ∈ A, e.start ≤ m.start ∧ e.«end» ≤ m.start) →
      pos ≤ m.start →
      replaceSpansAsc rep text pos (A ++ [m])
        = replaceSpansAsc rep (text.take m.start) pos A
            ++ rep m ++ text.drop m.«end» := by
  intro A
  induction A with
  | nil =>
    intro text pos _ hpos
    unfold replaceSpansAsc
    simp only [List.nil_append]
    rw [← List.drop_take]
    unfold replaceSpansAsc
    simp [List.append_assoc]
  | cons a A' ih =>
    intro text pos hA hpos
    have ha := hA a (List.mem_cons_self a A')
    have hA' : ∀ e ∈ A', e.start ≤ m.start ∧ e.«end» ≤ m.start :=
      fun e he => hA e (List.mem_cons_of_mem a he)
    simp only [List.cons_append]
    unfold replaceSpansAsc
    rw [ih text a.«end» hA' ha.2]
    have htake : ((text.take m.start).drop pos).take (a.start - pos)
        = (text.drop pos).take (a.start - pos) := by
      rw [List.drop_take]
      rw [List.take_take]
      congr 1
      omega
    rw [htake]
    simp [List.append_assoc]

/-- Right-to-left folding of splices renders the ascending
split-and-replace form. -/
theorem foldl_splice_eq_replaceSpans (rep : PiiEntity → Str) :
    ∀ (D : List PiiEntity) (text : Str),
      D.Pairwise DescByStart → D.Pairwise EntDisjoint →
      (∀ e ∈ D, e.start < e.«end» ∧ e.«end» ≤ text.length) →
      D.foldl (spliceOne rep) text = replaceSpansAsc rep text 0 D.reverse := by
  intro D
  induction D with
  | nil => intro text _ _ _; rfl
  | cons m D' ih =>
    intro text hdesc hdis hb
    have hbm := hb m (List.mem_cons_self m D')
    have hlater := later_ends_before m D' hdesc hdis
      (fun x hx => (hb x hx).1)
    have ht1len : (text.take m.start).length = m.start := by
      rw [List.length_take]
      omega
    have hsplice : spliceOne rep text m
        = text.take m.start ++ (rep m ++ text.drop m.«end») := by
      unfold spliceOne
      simp [List.append_assoc]
    have hstep : (m :: D').foldl (spliceOne rep) text
        = D'.foldl (spliceOne rep) (text.take m.start)
            ++ (rep m ++ text.drop m.«end») := by
      simp only [List.foldl_cons, hsplice]
      exact foldl_splice_append rep D' (text.take m.start) _
        (List.pairwise_cons.1 hdesc).2 (List.pairwise_cons.1 hdis).2
        (fun e he => ⟨(hb e (List.mem_cons_of_mem m he)).1, by
          have := hlater e he
          omega⟩)
    rw [hstep]
    rw [ih (text.take m.start) (List.pairwise_cons.1 hdesc).2
      (List.pairwise_cons.1 hdis).2
      (fun e he => ⟨(hb e (List.mem_cons_of_mem m he)).1, by
        have := hlater e he
        omega⟩)]
    have hrev : (m :: D').reverse = D'.reverse ++ [m] := by
      simp
    rw [hrev]
    rw [replaceSpansAsc_append_last rep m D'.reverse text 0
      (fun e he => by
        have hmem := List.mem_reverse.1 he
        have h1 := (List.pairwise_cons.1 hdesc).1 e hmem
        have h2 := hlater e hmem
        exact ⟨h1, h2⟩)
      (by omega)]
    simp [List.append_assoc]

/-- C4: under in-bounds, pairwise non-overlapping entities,
applyRedactions (which processes entities in descending start order)
returns exactly the text in which each entity span is replaced by its
generated replacement and every character outside the spans is kept
unchanged in its original relative order — the ascending-order rendering
replaceSpansAsc over a sorted permutation of the entity list. -/
theorem apply_redactions_splice (hmac : Str → Str → Str)
    (opts : RedactionOptions) (text : Str) (entities : List PiiEntity)
    (hb : EntInBounds text entities) (hn : EntNonOverlapping entities) :
    applyRedactions hmac opts text entities
      = replaceSpansAsc (replacementFor hmac opts) text 0
          (sortByStartDesc entities).reverse ∧
    ((sortByStartDesc entities).reverse).Perm entities ∧
    ((sortByStartDesc entities).reverse).Pairwise
      (fun a b => a.start ≤ b.start) := by
  have hperm := sortByStartDesc_perm entities
  have hdesc := sortByStartDesc_sorted entities
  have hdis : (sortByStartDesc entities).Pairwise EntDisjoint := by
    refine (List.Perm.pairwise_iff ?_ hperm).2 hn
    intro a b hab
    exact EntDisjoint_symm hab
  have hbs : ∀ e ∈ sortByStartDesc entities,
      e.start < e.«end» ∧ e.«end» ≤ text.length :=
    fun e he => hb e (hperm.mem_iff.1 he)
  refine ⟨?_, ?_, ?_⟩
  · exact foldl_splice_eq_replaceSpans (replacementFor hmac opts)
      (sortByStartDesc entities) text hdesc hdis hbs
  · exact (List.reverse_perm _).trans hperm
  · rw [List.pairwise_reverse]
    exact hdesc

/-- Witness for C4: two disjoint spans over a concrete text under
simple redaction. -/
theorem apply_redactions_splice_witness :
    applyRedactions (fun _ _ => []) ⟨false, str "s", 500, .closed⟩
        (str "abcdefgh")
        [⟨PERSON, str "cd", 2, 4, 1⟩, ⟨EMAIL, str "fg", 5, 7, 1⟩]
      = replaceSpansAsc
          (replacementFor (fun _ _ => []) ⟨false, str "s", 500, .closed⟩)
          (str "abcdefgh") 0
          (sortByStartDesc
            [⟨PERSON, str "cd", 2, 4, 1⟩, ⟨EMAIL, str "fg", 5, 7, 1⟩]).reverse :=
  (apply_redactions_splice (fun _ _ => []) ⟨false, str "s", 500, .closed⟩
    (str "abcdefgh")
    [⟨PERSON, str "cd", 2, 4, 1⟩, ⟨EMAIL, str "fg", 5, 7, 1⟩]
    (by unfold EntInBounds; decide) (by
      unfold EntNonOverlapping
      refine List.Pairwise.cons ?_ (List.pairwise_singleton _ _)
      intro b hb
      simp only [List.mem_singleton] at hb
      subst hb
      unfold EntDisjoint
      decide)).1

/-! ## C5: streaming completeness -/

theorem strConcat_append (a b : List Str) :
    strConcat (a ++ b) = strConcat a ++ strConcat b := by
  induction a with
  | nil => rfl
  | cons x t ih =>
    simp only [strConcat, List.foldr_cons] at ih ⊢
    simp [List.cons_append, ih, List.append_assoc]

theorem splitComplete_no_newline (s : Str) : '\n' ∉ (splitComplete s).2 := by
  induction s with
  | nil => simp [splitComplete]
  | cons c rest ih =>
    by_cases hc : c = '\n'
    · subst hc
      simp only [splitComplete, if_pos rfl]
      exact ih
    · simp only [splitComplete, if_neg hc]
      cases hs : splitComplete rest with
      | mk ls r =>
        cases ls with
        | nil =>
          simp only
          intro hmem
          rcases List.mem_cons.1 hmem with rfl | hr
          · exact hc rfl
          · rw [hs] at ih
            exact ih hr
        | cons l ls' =>
          simp only
          rw [hs] at ih
          exact ih

theorem splitComplete_of_no_newline (t : Str) (h : '\n' ∉ t) :
    splitComplete t = ([], t) := by
  induction t with
  | nil => rfl
  | cons c rest ih =>
    have hc : ¬ c = '\n' := fun hcc => h (hcc ▸ List.mem_cons_self c rest)
    have hrest : '\n' ∉ rest := fun hr => h (List.mem_cons_of_mem c hr)
    simp only [splitComplete, if_neg hc, ih hrest]

theorem splitComplete_cons_newline (x : Str) :
    splitComplete ('\n' :: x)
      = (([] : Str) :: (splitComplete x).1, (splitComplete x).2) := by
  simp [splitComplete]

theorem splitComplete_cons_other (c : Char) (x : Str) (hc : c ≠ '\n') :
    splitComplete (c :: x)
      = (match splitComplete x with
         | ([], r) => ([], c :: r)
         | (l :: ls, r) => ((c :: l) :: ls, r)) := by
  simp [splitComplete, hc]

theorem splitComplete_append (a : Str) : ∀ b : Str,
    splitComplete (a ++ b)
      = ((splitComplete a).1
          ++ (splitComplete ((splitComplete a).2 ++ b)).1,
         (splitComplete ((splitComplete a).2 ++ b)).2) := by
  induction a with
  | nil => intro b; simp [splitComplete]
  | cons c rest ih =>
    intro b
    by_cases hc : c = '\n'
    · subst hc
      show splitComplete ('\n' :: (rest ++ b)) = _
      rw [splitComplete_cons_newline, ih b]
      rw [splitComplete_cons_newline]
      simp
    · show splitComplete (c :: (rest ++ b)) = _
      rw [splitComplete_cons_other c (rest ++ b) hc, ih b]
      rw [splitComplete_cons_other c rest hc]
      cases hs : splitComplete rest with
      | mk ls r =>
        cases ls with
        | nil =>
          simp only [List.nil_append]
          have hcr : (c :: r) ++ b = c :: (r ++ b) := rfl
          rw [hcr, splitComplete_cons_other c (r ++ b) hc]
        | cons l ls' =>
          simp

theorem formatFrame_lineBuffer (st : StreamState) (t : Str) :
    (formatFrame st t).2.lineBuffer = st.lineBuffer := by
  unfold formatFrame
  split <;> rfl

theorem flushBuffer_lineBuffer (redactText : Str → Str) (st : StreamState)
    (now : Nat) :
    (flushBuffer redactText st now).1.lineBuffer = st.lineBuffer := by
  by_cases hb : st.buffer = []
  · simp [flushBuffer, hb]
  · simp only [flushBuffer, if_neg hb]
    rw [formatFrame_lineBuffer]

/-- Effect of a conditional flush on deltas, buffer and line buffer. -/
theorem flushOrNot_effect (redactText : Str → Str) (st2 : StreamState)
    (now : Nat) (b : Bool) :
    ∃ segs : List Str,
      deltaTexts (if b = true then flushBuffer redactText st2 now
          else (st2, [])).2
        = segs.map redactText ∧
      strConcat segs
          ++ (if b = true then flushBuffer redactText st2 now
              else (st2, [])).1.buffer
        = st2.buffer ∧
      (if b = true then flushBuffer redactText st2 now
          else (st2, [])).1.lineBuffer
        = st2.lineBuffer := by
  cases b with
  | false =>
    refine ⟨[], ?_, ?_, ?_⟩ <;> simp [deltaTexts, strConcat]
  | true =>
    rw [if_pos rfl]
    by_cases hb : st2.buffer = []
    · refine ⟨[], ?_, ?_, ?_⟩
      · rw [(flushBuffer_spec redactText st2 now).1]
        simp [hb]
      · rw [(flushBuffer_spec redactText st2 now).2]
        simp [hb, strConcat]
      · exact flushBuffer_lineBuffer redactText st2 now
    · refine ⟨[st2.buffer], ?_, ?_, ?_⟩
      · rw [(flushBuffer_spec redactText st2 now).1]
        simp [hb]
      · rw [(flushBuffer_spec redactText st2 now).2]
        simp [strConcat]
      · exact flushBuffer_lineBuffer redactText st2 now

theorem extractDeltaContent_fst (meta : StreamMeta) (data : ChunkJson)
    (choice : ChoiceJson) (rest : List ChoiceJson)
    (hch : data.choices = choice :: rest) :
    (extractDeltaContent meta data).1 = choice.content.getD [] := by
  unfold extractDeltaContent
  rw [hch]

/-- Effect of one complete line on the emitted deltas and the
accumulation buffer: the emitted segments plus the remaining buffer
account exactly for the old buffer plus the line's delta content, and
the line-reassembly buffer is untouched. -/
theorem processLine_effect (parse : Str → Option ChunkJson)
    (redactText : Str → Str) (opts : StreamOptions) (now : Nat)
    (st : StreamState) (rawLine : Str) :
    ∃ segs : List Str,
      deltaTexts (processLine parse redactText opts now st rawLine).2
        = segs.map redactText ∧
      strConcat segs
          ++ (processLine parse redactText opts now st rawLine).1.buffer
        = st.buffer ++ (lineDelta parse rawLine).getD [] ∧
      (processLine parse redactText opts now st rawLine).1.lineBuffer
        = st.lineBuffer := by
  by_cases hpre : (str "data:").isPrefixOf (stripCR rawLine) = true
  · by_cases hdone : jsTrim ((stripCR rawLine).drop 5) = str "[DONE]"
    · have heq : processLine parse redactText opts now st rawLine
          = ((flushBuffer redactText st now).1,
             (flushBuffer redactText st now).2 ++ [OutItem.doneMark]) := by
        simp [processLine, hpre, hdone]
      have hld : lineDelta parse rawLine = none := by
        simp [lineDelta, hpre, hdone]
      rw [heq, hld]
      by_cases hb : st.buffer = []
      · refine ⟨[], ?_, ?_, ?_⟩
        · simp only [deltaTexts_append, (flushBuffer_spec redactText st now).1]
          simp [hb, deltaTexts]
        · rw [(flushBuffer_spec redactText st now).2]
          simp [hb, strConcat]
        · exact flushBuffer_lineBuffer redactText st now
      · refine ⟨[st.buffer], ?_, ?_, ?_⟩
        · simp only [deltaTexts_append, (flushBuffer_spec redactText st now).1]
          simp [hb, deltaTexts]
        · rw [(flushBuffer_spec redactText st now).2]
          simp [strConcat]
        · exact flushBuffer_lineBuffer redactText st now
    · cases hp : parse (jsTrim ((stripCR rawLine).drop 5)) with
      | none =>
        have heq : processLine parse redactText opts now st rawLine
            = (st, [.passthrough (stripCR rawLine ++ str "\n")]) := by
          simp [processLine, hpre, hdone, hp]
        have hld : lineDelta parse rawLine = none := by
          simp [lineDelta, hpre, hdone, hp]
        rw [heq, hld]
        exact ⟨[], by simp [deltaTexts], by simp [strConcat], rfl⟩
      | some data =>
        cases hch : data.choices with
        | nil =>
          have hcont : (extractDeltaContent st.lastMeta data).1 = [] := by
            unfold extractDeltaContent
            rw [hch]
          have heq : processLine parse redactText opts now st rawLine
              = ({ st with lastMeta := (extractDeltaContent st.lastMeta data).2 },
                 [.passthrough (stripCR rawLine ++ str "\n")]) := by
            simp [processLine, hpre, hdone, hp, hcont]
          have hld : lineDelta parse rawLine = none := by
            simp [lineDelta, hpre, hdone, hp, hch]
          rw [heq, hld]
          exact ⟨[], by simp [deltaTexts], by simp [strConcat], rfl⟩
        | cons choice rest =>
          have hcfst := extractDeltaContent_fst st.lastMeta data choice rest hch
          by_cases hcont : (extractDeltaContent st.lastMeta data).1 = []
          · have heq : processLine parse redactText opts now st rawLine
                = ({ st with lastMeta := (extractDeltaContent st.lastMeta data).2 },
                   [.passthrough (stripCR rawLine ++ str "\n")]) := by
              simp [processLine, hpre, hdone, hp, hcont]
            have hld : lineDelta parse rawLine = none := by
              rw [hcont] at hcfst
              cases hcc : choice.content with
              | none => simp [lineDelta, hpre, hdone, hp, hch, hcc]
              | some c =>
                rw [hcc] at hcfst
                simp only [Option.getD_some] at hcfst
                simp [lineDelta, hpre, hdone, hp, hch, hcc, hcfst.symm]
            rw [heq, hld]
            exact ⟨[], by simp [deltaTexts], by simp [strConcat], rfl⟩
          · have heq : processLine parse redactText opts now st rawLine
                = (if shouldFlush opts
                      { st with
                        lastMeta := (extractDeltaContent st.lastMeta data).2,
                        buffer := st.buffer
                          ++ (extractDeltaContent st.lastMeta data).1,
                        tokenCount := st.tokenCount
                          + estimateTokens (extractDeltaContent st.lastMeta data).1 }
                      now = true then
                    flushBuffer redactText
                      { st with
                        lastMeta := (extractDeltaContent st.lastMeta data).2,
                        buffer := st.buffer
                          ++ (extractDeltaContent st.lastMeta data).1,
                        tokenCount := st.tokenCount
                          + estimateTokens (extractDeltaContent st.lastMeta data).1 }
                      now
                  else
                    ({ st with
                        lastMeta := (extractDeltaContent st.lastMeta data).2,
                        buffer := st.buffer
                          ++ (extractDeltaContent st.lastMeta data).1,
                        tokenCount := st.tokenCount
                          + estimateTokens (extractDeltaContent st.lastMeta data).1 },
                     [])) := by
              simp [processLine, hpre, hdone, hp, hcont]
            have hld : lineDelta parse rawLine
                = some (extractDeltaContent st.lastMeta data).1 := by
              cases hcc : choice.content with
              | none =>
                rw [hcc] at hcfst
                simp only [Option.getD_none] at hcfst
                exact absurd hcfst hcont
              | some c =>
                rw [hcc] at hcfst
                simp only [Option.getD_some] at hcfst
                rw [hcfst] at hcont ⊢
                simp [lineDelta, hpre, hdone, hp, hch, hcc, hcont]
            rw [heq, hld]
            obtain ⟨segs, h1, h2, h3⟩ := flushOrNot_effect redactText
              { st with
                  lastMeta := (extractDeltaContent st.lastMeta data).2,
                  buffer := st.buffer
                    ++ (extractDeltaContent st.lastMeta data).1,
                  tokenCount := st.tokenCount
                    + estimateTokens (extractDeltaContent st.lastMeta data).1 }
              now (shouldFlush opts
                { st with
                    lastMeta := (extractDeltaContent st.lastMeta data).2,
                    buffer := st.buffer
                      ++ (extractDeltaContent st.lastMeta data).1,
                    tokenCount := st.tokenCount
                      + estimateTokens (extractDeltaContent st.lastMeta data).1 }
                now)
            exact ⟨segs, h1, by simpa using h2, h3⟩
  · have heq : processLine parse redactText opts now st rawLine
        = (st,
           [if stripCR rawLine = [] then OutItem.passthrough (str "\n")
            else .passthrough (stripCR rawLine ++ str "\n")]) := by
      have hds : (str "data:").isPrefixOf ([] : Str) = false := by decide
      by_cases hnil : stripCR rawLine = [] <;>
        simp [processLine, hpre, hnil, hds]
    have hld : lineDelta parse rawLine = none := by
      simp [lineDelta, hpre]
    rw [heq, hld]
    refine ⟨[], ?_, by simp [strConcat], rfl⟩
    by_cases hnil : stripCR rawLine = [] <;> simp [hnil, deltaTexts]

theorem append_congr_assoc {α : Type} (A B S L T : List α)
    (h : A ++ B = S ++ L) : A ++ (B ++ T) = S ++ (L ++ T) := by
  rw [← List.append_assoc, ← List.append_assoc, h]

theorem processLines_effect (parse : Str → Option ChunkJson)
    (redactText : Str → Str) (opts : StreamOptions) (now : Nat) :
    ∀ (lines : List Str) (st : StreamState),
      ∃ segs : List Str,
        deltaTexts (processLines parse redactText opts now st lines).2
          = segs.map redactText ∧
        strConcat segs
            ++ (processLines parse redactText opts now st lines).1.buffer
          = st.buffer ++ strConcat (lines.filterMap (lineDelta parse)) ∧
        (processLines parse redactText opts now st lines).1.lineBuffer
          = st.lineBuffer := by
  intro lines
  induction lines with
  | nil =>
    intro st
    exact ⟨[], by simp [processLines, deltaTexts],
      by simp [processLines, strConcat], rfl⟩
  | cons l ls ih =>
    intro st
    obtain ⟨segs1, h11, h12, h13⟩ :=
      processLine_effect parse redactText opts now st l
    obtain ⟨segs2, h21, h22, h23⟩ :=
      ih (processLine parse redactText opts now st l).1
    refine ⟨segs1 ++ segs2, ?_, ?_, ?_⟩
    · simp only [processLines, deltaTexts_append, h11, h21, List.map_append]
    · simp only [processLines, strConcat_append, List.filterMap_cons]
      cases hld : lineDelta parse l with
      | none =>
        rw [hld] at h12
        simp only [Option.getD_none, List.append_nil] at h12
        rw [List.append_assoc, h22, ← List.append_assoc, h12]
      | some c =>
        rw [hld] at h12
        simp only [Option.getD_some] at h12
        rw [List.append_assoc, h22, ← List.append_assoc, h12]
        simp [strConcat, List.append_assoc]
    · simp only [processLines, h23, h13]

theorem eventBytes_cons_chunk (s : Str) (now : Nat)
    (evs : List StreamEvent) :
    eventBytes (.chunk s now :: evs) = s ++ eventBytes evs := rfl

theorem eventBytes_cons_timer (now : Nat) (evs : List StreamEvent) :
    eventBytes (.timer now :: evs) = eventBytes evs := by
  simp [eventBytes]

theorem scheduleFlush_buffer (st : StreamState) :
    (scheduleFlush st).buffer = st.buffer := rfl

theorem scheduleFlush_lineBuffer (st : StreamState) :
    (scheduleFlush st).lineBuffer = st.lineBuffer := rfl

theorem runEvents_effect (parse : Str → Option ChunkJson)
    (redactText : Str → Str) (opts : StreamOptions) :
    ∀ (events : List StreamEvent) (st : StreamState),
      splitComplete st.lineBuffer = ([], st.lineBuffer) →
      ∃ segs : List Str,
        deltaTexts (runEvents parse redactText opts st events).2
          = segs.map redactText ∧
        strConcat segs
            ++ (runEvents parse redactText opts st events).1.buffer
          = st.buffer
            ++ strConcat
              (((splitComplete (st.lineBuffer ++ eventBytes events)).1).filterMap
                (lineDelta parse)) := by
  intro events
  induction events with
  | nil =>
    intro st hpart
    refine ⟨[], by simp [runEvents, deltaTexts], ?_⟩
    simp only [runEvents, eventBytes, List.map_nil, List.foldr_nil,
      List.append_nil, hpart, List.filterMap_nil]
    simp [strConcat]
  | cons ev evs ih =>
    intro st hpart
    cases ev with
    | chunk s now =>
      obtain ⟨segs1, h11, h12, h13⟩ := processLines_effect parse redactText
        opts now ((splitComplete (st.lineBuffer ++ s)).1)
        { st with lineBuffer := (splitComplete (st.lineBuffer ++ s)).2 }
      have hstep : stepEvent parse redactText opts st (.chunk s now)
          = (scheduleFlush (processLines parse redactText opts now
              { st with lineBuffer := (splitComplete (st.lineBuffer ++ s)).2 }
              ((splitComplete (st.lineBuffer ++ s)).1)).1,
             (processLines parse redactText opts now
              { st with lineBuffer := (splitComplete (st.lineBuffer ++ s)).2 }
              ((splitComplete (st.lineBuffer ++ s)).1)).2) := rfl
      have hlb2 : (scheduleFlush (processLines parse redactText opts now
            { st with lineBuffer := (splitComplete (st.lineBuffer ++ s)).2 }
            ((splitComplete (st.lineBuffer ++ s)).1)).1).lineBuffer
          = (splitComplete (st.lineBuffer ++ s)).2 := by
        rw [scheduleFlush_lineBuffer, h13]
      have hpart2 : splitComplete (scheduleFlush (processLines parse
            redactText opts now
            { st with lineBuffer := (splitComplete (st.lineBuffer ++ s)).2 }
            ((splitComplete (st.lineBuffer ++ s)).1)).1).lineBuffer
          = ([], (scheduleFlush (processLines parse redactText opts now
              { st with lineBuffer := (splitComplete (st.lineBuffer ++ s)).2 }
              ((splitComplete (st.lineBuffer ++ s)).1)).1).lineBuffer) := by
        rw [hlb2]
        exact splitComplete_of_no_newline _ (splitComplete_no_newline _)
      obtain ⟨segs2, h21, h22⟩ := ih _ hpart2
      refine ⟨segs1 ++ segs2, ?_, ?_⟩
      · simp only [runEvents, hstep, deltaTexts_append, List.map_append,
          h11, h21]
      · simp only [runEvents, hstep, strConcat_append]
        rw [List.append_assoc, h22, hlb2]
        rw [eventBytes_cons_chunk, ← List.append_assoc (st.lineBuffer)]
        rw [splitComplete_append (st.lineBuffer ++ s) (eventBytes evs)]
        simp only [List.filterMap_append, strConcat_append]
        rw [scheduleFlush_buffer]
        dsimp only at h12
        exact append_congr_assoc _ _ _ _ _ h12
    | timer now =>
      cases harm : st.timerArmed with
      | false =>
        have hstep : stepEvent parse redactText opts st (.timer now)
            = (st, []) := by
          simp [stepEvent, timerFire, harm]
        obtain ⟨segs2, h21, h22⟩ := ih st hpart
        refine ⟨segs2, ?_, ?_⟩
        · simp only [runEvents, hstep, List.nil_append, h21]
        · simp only [runEvents, hstep, List.nil_append,
            eventBytes_cons_timer]
          exact h22
      | true =>
        have hstep : stepEvent parse redactText opts st (.timer now)
            = flushBuffer redactText { st with timerArmed := false } now := by
          simp [stepEvent, timerFire, harm]
        have hfl := flushBuffer_spec redactText
          { st with timerArmed := false } now
        have hlb := flushBuffer_lineBuffer redactText
          { st with timerArmed := false } now
        have hpart2 : splitComplete (flushBuffer redactText
              { st with timerArmed := false } now).1.lineBuffer
            = ([], (flushBuffer redactText
                { st with timerArmed := false } now).1.lineBuffer) := by
          rw [hlb]
          exact hpart
        obtain ⟨segs2, h21, h22⟩ := ih _ hpart2
        refine ⟨(if st.buffer = [] then [] else [st.buffer]) ++ segs2, ?_, ?_⟩
        · simp only [runEvents, hstep, deltaTexts_append, List.map_append,
            h21, hfl.1]
          by_cases hb : st.buffer = [] <;> simp [hb]
        · simp only [runEvents, hstep, strConcat_append,
            eventBytes_cons_timer]
          rw [List.append_assoc, h22, hfl.2, hlb]
          by_cases hb : st.buffer = [] <;> simp [hb, strConcat]

/-- C5 amended: the delta frames a whole stream run emits are exactly
the redacted forms of a sequence of segments that partitions the
concatenation of all input delta texts — no characters are dropped or
duplicated before redaction, whatever the interleaving of chunk arrivals
and timer callbacks. -/
theorem stream_completeness_partition (parse : Str → Option ChunkJson)
    (redactText : Str → Str) (opts : StreamOptions) (now0 : Nat)
    (events : List StreamEvent) (endNow : Nat) :
    ∃ segs : List Str,
      deltaTexts (runStream parse redactText opts now0 events endNow)
        = segs.map redactText ∧
      strConcat segs = strConcat (inputDeltas parse events) := by
  obtain ⟨segs1, h11, h12⟩ := runEvents_effect parse redactText opts events
    (initStreamState now0) rfl
  have hdrain := flushBuffer_spec redactText
    (if ((runEvents parse redactText opts (initStreamState now0)
          events).1).lineBuffer ≠ [] then
      { (runEvents parse redactText opts (initStreamState now0) events).1 with
          timerArmed := false, lineBuffer := ([] : Str) }
    else
      { (runEvents parse redactText opts (initStreamState now0) events).1 with
          timerArmed := false }) endNow
  refine ⟨segs1 ++ (if ((runEvents parse redactText opts
      (initStreamState now0) events).1).buffer = [] then []
    else [((runEvents parse redactText opts
      (initStreamState now0) events).1).buffer]), ?_, ?_⟩
  · unfold runStream finalDrain
    rw [deltaTexts_append, h11, deltaTexts_append, List.map_append]
    congr 1
    by_cases hlb : ((runEvents parse redactText opts (initStreamState now0)
        events).1).lineBuffer ≠ []
    · simp only [if_pos hlb] at hdrain ⊢
      rw [hdrain.1]
      by_cases hb : ((runEvents parse redactText opts (initStreamState now0)
          events).1).buffer = [] <;> simp [hb, deltaTexts]
    · simp only [if_neg hlb] at hdrain ⊢
      rw [hdrain.1]
      by_cases hb : ((runEvents parse redactText opts (initStreamState now0)
          events).1).buffer = [] <;> simp [hb, deltaTexts]
  · rw [strConcat_append]
    have hfinal : strConcat (if ((runEvents parse redactText opts
          (initStreamState now0) events).1).buffer = [] then []
        else [((runEvents parse redactText opts
          (initStreamState now0) events).1).buffer])
        = ((runEvents parse redactText opts
          (initStreamState now0) events).1).buffer := by
      by_cases hb : ((runEvents parse redactText opts (initStreamState now0)
          events).1).buffer = [] <;> simp [hb, strConcat]
    rw [hfinal, h12]
    simp [inputDeltas, initStreamState]

/-- C5 counterexample: for the concrete two-delta stream, the
concatenation of the emitted delta texts is not the redacted form of the
concatenation of the input delta texts — the first flush fires at the
sentence boundary before the name arrives, so the contextual classifier
never sees the name in context and the emitted text differs from
redacting the whole concatenation. -/
theorem stream_completeness_counterexample :
    strConcat (deltaTexts (runStream parseAB redactAB defaultStreamOptions 0
        [.chunk (str "data: A\ndata: B\n") 0] 0))
      ≠ redactAB (strConcat (inputDeltas parseAB
        [.chunk (str "data: A\ndata: B\n") 0])) := by
  decide

end PiiService
